import Mathlib

/-!
Verification of the tightdi dependency-injection container (src/container.ts).

The embedding models the runtime semantics of the container:
tokens are opaque identities (modelled as naturals), JavaScript values are
modelled by an inductive type with its truthiness predicate, JS `Map`s are
insertion-ordered association lists, and the resolver engine is a fuel-indexed
state-passing function family mirroring `InternalResolver` from the source.
-/

namespace TightDI

/-- Opaque token identity (reference identity in JS, a natural number here). -/
abbrev Token := Nat

/-- Model of a JavaScript runtime value, sufficient to express truthiness and
object identity (`vobj` carries an allocation id). -/
inductive JSVal where
  | vundef : JSVal
  | vnull : JSVal
  | vbool : Bool → JSVal
  | vnum : Int → JSVal
  | vstr : String → JSVal
  | vobj : Nat → JSVal
deriving DecidableEq, Repr

/-- JavaScript truthiness: `undefined`, `null`, `false`, `0` and `""` are
falsy, everything else (in this model) is truthy. -/
def JSVal.truthy : JSVal → Bool
  | .vundef => false
  | .vnull => false
  | .vbool b => b
  | .vnum n => n != 0
  | .vstr s => s != ""
  | .vobj _ => true

/-- Lifetime policy of a service definition (src/container.ts line 155). -/
inductive Lifetime where
  | singleton : Lifetime
  | transient : Lifetime
  | scoped : Lifetime
deriving DecidableEq, Repr

/-- A service definition (src/container.ts `ServiceDefinition`): an ordered
dependency list, a lifetime, and a factory.  The factory receives the resolved
dependency values positionally and a fresh-allocation counter, and returns the
constructed instance together with the updated counter (this models factories
that allocate fresh objects). -/
structure ServiceDefinition where
  requires : List Token
  lifetime : Lifetime
  factory : List JSVal → Nat → JSVal × Nat

/-- JS `Map.get`: the value stored at the key, if present. -/
def mapGet {α : Type} (m : List (Token × α)) (k : Token) : Option α :=
  (m.find? (fun p => p.1 == k)).map (fun p => p.2)

/-- JS `Map.has`. -/
def mapHas {α : Type} (m : List (Token × α)) (k : Token) : Bool :=
  (mapGet m k).isSome

/-- JS `Map.set`: overwrite in place if the key is present (insertion order is
kept), otherwise append at the end. -/
def mapSet {α : Type} (m : List (Token × α)) (k : Token) (v : α) : List (Token × α) :=
  if mapHas m k then m.map (fun p => if p.1 == k then (k, v) else p) else m ++ [(k, v)]

/-- JS `Map.keys()` in insertion order. -/
def mapKeys {α : Type} (m : List (Token × α)) : List Token :=
  m.map (fun p => p.1)

/-- The registration map of a container: Token to ServiceDefinition,
insertion-ordered (JS `Map`). -/
abbrev RegMap := List (Token × ServiceDefinition)

/-- The container value produced by `createInnerContainer`
(src/container.ts lines 363 - 409): the accumulated `required` token list, the
`provided` token list, and the registration map. -/
structure Container where
  required : List Token
  provided : List Token
  map : RegMap

/-- The operation `container.provide(token, value)` (src/container.ts lines 376 - 393):
extends `required` by the definition's `requires`, appends the token to
`provided`, and copies the map, setting the new registration.  Note: there is
no runtime duplicate check in the source; `Map.set` silently overwrites. -/
def provide (c : Container) (t : Token) (d : ServiceDefinition) : Container :=
  { required := c.required ++ d.requires
    provided := c.provided ++ [t]
    map := mapSet c.map t d }

/-- The operation `createContainer().provide(token, value)` (src/container.ts lines 411 - 429). -/
def createContainerProvide (t : Token) (d : ServiceDefinition) : Container :=
  { required := d.requires
    provided := [t]
    map := mapSet [] t d }

/-! ### Cycle detection (src/container.ts lines 431 - 491) -/

/-- The dependency graph: a JS `Map` from token to its `requires` list. -/
abbrev Graph := List (Token × List Token)

/-- The function `graphFromServiceMap` (src/container.ts lines 449 - 459). -/
def graphFromServiceMap (m : RegMap) : Graph :=
  m.map (fun p => (p.1, p.2.requires))

/-- The expression `graph.get(node) ?? []` (src/container.ts line 473): the successor list of
a node, empty for nodes with no entry. -/
def neighbors (g : Graph) (u : Token) : List Token :=
  (mapGet g u).getD []

/-- JS `Set.has`. -/
def setMem (s : List Token) (x : Token) : Bool := s.contains x

/-- JS `Set.add` (no duplicates, insertion order kept). -/
def setAdd (s : List Token) (x : Token) : List Token :=
  if s.contains x then s else s ++ [x]

/-- JS `Set.delete`. -/
def setDel (s : List Token) (x : Token) : List Token :=
  s.filter (fun y => y != x)

/-- The finite universe of nodes a DFS run can ever touch: the graph's keys
together with every listed neighbor. -/
def uNodes (g : Graph) : List Token :=
  mapKeys g ++ (g.map (fun p => p.2)).flatten

mutual

/-- The function `hasCycle` (src/container.ts lines 461 - 480), fuel-indexed.  Returns the
cycle flag together with the updated `visited` and `recStack` sets; `none`
means the fuel ran out (never happens for the fuel used by `isCyclic`, as
proven below).  `hasCycleList` is the `for (const neighbor of ...)` loop. -/
def hasCycle (fuel : Nat) (g : Graph) (node : Token) (visited recStack : List Token) :
    Option (Bool × List Token × List Token) :=
  match fuel with
  | 0 => none
  | fuel + 1 =>
    if setMem recStack node then some (true, visited, recStack)
    else if setMem visited node then some (false, visited, recStack)
    else
      match hasCycleList fuel g (neighbors g node) (setAdd visited node) (setAdd recStack node) with
      | none => none
      | some (true, v2, r2) => some (true, v2, r2)
      | some (false, v2, r2) => some (false, v2, setDel r2 node)
  termination_by (fuel, 0)

/-- The neighbor loop of `hasCycle`: thread `visited`/`recStack` through the
successor list, short-circuiting on the first cycle found. -/
def hasCycleList (fuel : Nat) (g : Graph) (ns : List Token) (visited recStack : List Token) :
    Option (Bool × List Token × List Token) :=
  match ns with
  | [] => some (false, visited, recStack)
  | n :: rest =>
    match hasCycle fuel g n visited recStack with
    | none => none
    | some (true, v2, r2) => some (true, v2, r2)
    | some (false, v2, r2) => hasCycleList fuel g rest v2 r2
  termination_by (fuel, ns.length + 1)

end

/-- The `for (const [node] of graph.entries())` loop of `isCyclic`
(src/container.ts lines 482 - 491). -/
def isCyclicLoop (fuel : Nat) (g : Graph) (nodes : List Token) (visited recStack : List Token) :
    Option Bool :=
  match nodes with
  | [] => some false
  | n :: rest =>
    match hasCycle fuel g n visited recStack with
    | none => none
    | some (true, _, _) => some true
    | some (false, v2, r2) => isCyclicLoop fuel g rest v2 r2

/-- The function `isCyclic` (src/container.ts lines 482 - 491): run the DFS from every key
with shared `visited` and `recStack` sets.  The fuel is provably sufficient. -/
def isCyclic (g : Graph) : Bool :=
  (isCyclicLoop ((uNodes g).length + 1) g (mapKeys g) [] []).getD false

/-- The edge relation of the dependency graph: an edge from `u` to each entry
of its successor list. -/
def EdgeG (g : Graph) (u v : Token) : Prop := v ∈ neighbors g u

/-- Mathematical cycle existence: some node reaches itself by a non-empty
edge path. -/
def HasCycleProp (g : Graph) : Prop := ∃ u, Relation.TransGen (EdgeG g) u u

/-! ### Resolver engine (src/container.ts lines 25 - 122) -/

/-- Errors the container can raise.  `outOfFuel` is an artifact of the
fuel-indexed embedding and corresponds to no source behavior. -/
inductive DIError where
  | inheritanceMismatch : DIError
  | cyclicDependency : DIError
  | missingRegistration : DIError
  | outOfFuel : DIError
deriving DecidableEq, Repr

/-- A resolver's private instance cache (`this.cache`, a JS `Map`). -/
abbrev Cache := List (Token × JSVal)

/-- A resolver chain: the head is this resolver's registration map, the tail
is the parent chain (`InternalResolver.registrations` and `.parent`). -/
abbrev Chain := List RegMap

/-- The mutable state threaded through a resolution: one cache per resolver of
the chain (head first, parallel to the `Chain`), the fresh-allocation counter
shared by all factories, and a trace recording every factory invocation as the
pair of the constructed token and the argument values passed. -/
structure St where
  caches : List Cache
  fresh : Nat
  trace : List (Token × List JSVal)
deriving DecidableEq, Repr

/-- The state as seen by the parent resolver: drop the head cache. -/
def subSt (s : St) : St := { s with caches := s.caches.tail }

/-- Re-attach the head cache after a parent call returned state `s1`. -/
def reSt (s : St) (s1 : St) : St := { s1 with caches := s.caches.headD [] :: s1.caches }

/-- Write `t := v` into the head resolver's cache (`this.cache.set(token, instance)`). -/
def setHeadCache (s : St) (t : Token) (v : JSVal) : St :=
  { s with caches := mapSet (s.caches.headD []) t v :: s.caches.tail }

/-- Read the head resolver's cache as the source does: `this.cache.get(token)`
yields `undefined` when absent. -/
def headCached (s : St) (t : Token) : JSVal :=
  (mapGet (s.caches.headD []) t).getD .vundef

mutual

/-- The method `InternalResolver[InternalResolve]` (src/container.ts lines 45 - 111):
look the token up in this resolver's own registrations (no parent fallback on
a missing definition - the source returns `undefined` at once), then dispatch
on the lifetime. -/
def internalResolve (fuel : Nat) (regs : Chain) (t : Token) (s : St) :
    Except DIError JSVal × St :=
  match fuel with
  | 0 => (.error .outOfFuel, s)
  | fuel + 1 =>
    match regs with
    | [] => (.ok .vundef, s)
    | r :: rest =>
      match mapGet r t with
      | none => (.ok .vundef, s)
      | some d =>
        match d.lifetime with
        | .scoped => cacheOrConstruct fuel (r :: rest) t d s
        | .singleton =>
          match rest with
          | [] => cacheOrConstruct fuel (r :: rest) t d s
          | r2 :: rest2 =>
            match internalResolve fuel (r2 :: rest2) t (subSt s) with
            | (.error e, s1) => (.error e, reSt s s1)
            | (.ok v, s1) =>
              if v.truthy then (.ok v, reSt s s1)
              else cacheOrConstruct fuel (r :: rest) t d (reSt s s1)
        | .transient =>
          match rest with
          | [] => constructInstance fuel (r :: rest) t d s
          | r2 :: rest2 =>
            match internalResolve fuel (r2 :: rest2) t (subSt s) with
            | (.error e, s1) => (.error e, reSt s s1)
            | (.ok v, s1) =>
              if v.truthy then (.ok v, reSt s s1)
              else constructInstance fuel (r :: rest) t d (reSt s s1)
  termination_by (fuel, 0, 0)

/-- The shared cache-check-then-construct block of the `scoped` and
`singleton` cases (src/container.ts lines 55 - 68 and 79 - 90): return the
cached value if truthy, otherwise construct, store and return. -/
def cacheOrConstruct (fuel : Nat) (regs : Chain) (t : Token) (d : ServiceDefinition) (s : St) :
    Except DIError JSVal × St :=
  let cached := headCached s t
  if cached.truthy then (.ok cached, s)
  else
    match constructInstance fuel regs t d s with
    | (.ok v, s1) => (.ok v, setHeadCache s1 t v)
    | (.error e, s1) => (.error e, s1)
  termination_by (fuel, 4, 0)

/-- The construction block shared by all three lifetimes
(src/container.ts lines 60 - 64, 83 - 87 and 102 - 106): resolve every
required token via `this.resolve`, then invoke the factory with the resolved
values; record the invocation in the trace. -/
def constructInstance (fuel : Nat) (regs : Chain) (t : Token) (d : ServiceDefinition) (s : St) :
    Except DIError JSVal × St :=
  match resolveMany fuel regs d.requires s with
  | (.ok vs, s1) =>
    let out := d.factory vs s1.fresh
    (.ok out.1, { s1 with fresh := out.2, trace := s1.trace ++ [(t, vs)] })
  | (.error e, s1) => (.error e, s1)
  termination_by (fuel, 3, 0)

/-- The expression `definition.requires.map((token) => this.resolve(token))`: resolve a list
of tokens left to right; a thrown error aborts the remaining resolutions. -/
def resolveMany (fuel : Nat) (regs : Chain) (ts : List Token) (s : St) :
    Except DIError (List JSVal) × St :=
  match ts with
  | [] => (.ok [], s)
  | t :: rest =>
    match resolveTop fuel regs t s with
    | (.error e, s1) => (.error e, s1)
    | (.ok v, s1) =>
      match resolveMany fuel regs rest s1 with
      | (.ok vs, s2) => (.ok (v :: vs), s2)
      | (.error e, s2) => (.error e, s2)
  termination_by (fuel, 2, ts.length)

/-- The method `Resolver.resolve` (src/container.ts lines 113 - 121): run the internal
resolution and turn any falsy outcome into the missing-registration error. -/
def resolveTop (fuel : Nat) (regs : Chain) (t : Token) (s : St) :
    Except DIError JSVal × St :=
  match internalResolve fuel regs t s with
  | (.ok v, s1) => if v.truthy then (.ok v, s1) else (.error .missingRegistration, s1)
  | (.error e, s1) => (.error e, s1)
  termination_by (fuel, 1, 0)

end

/-- The method `InternalResolver[InternalCheckInheriting]` (src/container.ts lines
35 - 43): every key of the parent's own registrations must be present in the
inheriting (child) map. -/
def checkInheriting (parentRegs : RegMap) (child : RegMap) : Bool :=
  (mapKeys parentRegs).all (fun k => mapHas child k)

/-- The operation `container.resolver(parent?)` (src/container.ts lines 395 - 405): with a
parent, first run the inheritance check, then cycle detection, then build the
resolver chain.  The resulting chain is the child map consed onto the parent
chain. -/
def resolverF (c : Container) (parent : Option Chain) : Except DIError Chain :=
  match parent with
  | some p =>
    if checkInheriting (p.headD []) c.map then
      if isCyclic (graphFromServiceMap c.map) then .error .cyclicDependency
      else .ok (c.map :: p)
    else .error .inheritanceMismatch
  | none =>
    if isCyclic (graphFromServiceMap c.map) then .error .cyclicDependency
    else .ok [c.map]

/-! ### Specification-side notions used by the proofs -/

/-- Node `v` reaches no node lying on a cycle. -/
def noCycleFrom (g : Graph) (v : Token) : Prop :=
  ∀ u, Relation.ReflTransGen (EdgeG g) v u → ¬ Relation.TransGen (EdgeG g) u u

/-- DFS invariant: every fully visited node that is not on the active
recursion stack reaches no cycle. -/
def okE (g : Graph) (V R : List Token) : Prop :=
  ∀ v ∈ V, v ∉ R → noCycleFrom g v

/-- Reachability along the `requires` edges of a registration map's graph
(reflexive-transitive closure). -/
def ReachS (r : RegMap) (u w : Token) : Prop :=
  Relation.ReflTransGen (EdgeG (graphFromServiceMap r)) u w

/-- The number of universe nodes not yet visited; the DFS fuel measure. -/
def missCount (g : Graph) (V : List Token) : Nat :=
  ((uNodes g).toFinset \ V.toFinset).card

/-- Sequential left-to-right resolution of a token list: the i-th value is
obtained by resolving the i-th token in the state left by its predecessors.
This is the specification-side reading of `requires.map((tk) => this.resolve(tk))`. -/
inductive ResolvesSeq (fuel : Nat) (regs : Chain) : List Token → List JSVal → St → St → Prop where
  | nil (s : St) : ResolvesSeq fuel regs [] [] s s
  | cons {t : Token} {ts : List Token} {v : JSVal} {vs : List JSVal} {s s1 s2 : St} :
      resolveTop fuel regs t s = (.ok v, s1) →
      ResolvesSeq fuel regs ts vs s1 s2 →
      ResolvesSeq fuel regs (t :: ts) (v :: vs) s s2

/-! ### Concrete containers used by witnesses and counterexamples -/

/-- A dependency-free singleton definition returning the fixed value `v`. -/
def constDef (v : JSVal) : ServiceDefinition := ⟨[], .singleton, fun _ n => (v, n)⟩

/-- A dependency-free singleton definition allocating a fresh object. -/
def allocDef : ServiceDefinition := ⟨[], .singleton, fun _ n => (.vobj n, n + 1)⟩

/-- A singleton definition with dependencies, allocating a fresh object. -/
def depDef (ts : List Token) : ServiceDefinition := ⟨ts, .singleton, fun _ n => (.vobj n, n + 1)⟩

/-- A cyclic registry: token 0 requires tokens 0 and 1 (only 0 registered),
mirroring the repository test `catches cyclical dependencies`. -/
def cycC : Container := createContainerProvide 0 (depDef [0, 1])

/-- An acyclic registry: token 0 requires token 1; token 1 has no dependencies. -/
def okC : Container := provide (createContainerProvide 0 (depDef [1])) 1 allocDef

/-- A registry whose only factory returns the falsy value `0`. -/
def zeroC : Container := createContainerProvide 5 (constDef (.vnum 0))

/-- A transient definition requiring token 1, allocating a fresh object. -/
def transDef : ServiceDefinition := ⟨[1], .transient, fun _ n => (.vobj n, n + 1)⟩

/-- A dependency-free scoped definition allocating a fresh object. -/
def scDef : ServiceDefinition := ⟨[], .scoped, fun _ n => (.vobj n, n + 1)⟩

/-- A registry with a transient token 0 depending on a scoped token 1. -/
def transC : Container := provide (createContainerProvide 0 transDef) 1 scDef

/-- A parent registry whose factory for token 3 returns the falsy `0` on its
first invocation and a fresh object afterwards. -/
def parC : Container :=
  createContainerProvide 3 ⟨[], .singleton, fun _ n => if n == 0 then (.vnum 0, n + 1) else (.vobj n, n + 1)⟩

/-- A child registry registering token 3 with a fresh-object singleton. -/
def chiC : Container := createContainerProvide 3 allocDef

/-- The resolver chain of `chiC` with `parC`'s resolver as parent. -/
def chainEx : Chain := [chiC.map, parC.map]

/-- A registry with a scoped fresh-object token 9. -/
def scC : Container := createContainerProvide 9 scDef

/-- A registry registering token 4 to a constant string singleton. -/
def strC : Container := createContainerProvide 4 (constDef (.vstr "x"))

/-- The initial state of a resolver chain of length `n`: empty caches, fresh
counter 0, empty trace. -/
def initSt (n : Nat) : St := ⟨List.replicate n [], 0, []⟩

/-! ### Map and set lemmas -/

theorem setMem_iff (s : List Token) (x : Token) : setMem s x = true ↔ x ∈ s := by
  simp [setMem]

theorem mem_setAdd (s : List Token) (x y : Token) : y ∈ setAdd s x ↔ y ∈ s ∨ y = x := by
  unfold setAdd
  by_cases h : s.contains x
  · simp only [h, if_true]
    constructor
    · exact fun hy => Or.inl hy
    · rintro (hy | hy)
      · exact hy
      · subst hy; simpa using h
  · simp only [h, if_false]
    simp

theorem setDel_setAdd_self (s : List Token) (x : Token) (h : x ∉ s) :
    setDel (setAdd s x) x = s := by
  unfold setDel setAdd
  rw [if_neg (by simpa using h)]
  rw [List.filter_append]
  have h1 : List.filter (fun y => y != x) s = s := by
    apply List.filter_eq_self.mpr
    intro a ha
    simp only [bne_iff_ne, ne_eq, decide_eq_true_eq]
    intro he
    subst he
    exact h ha
  have h2 : List.filter (fun y => y != x) [x] = [] := by simp
  rw [h1, h2, List.append_nil]

theorem mapGet_cons {α : Type} (p : Token × α) (m : List (Token × α)) (u : Token) :
    mapGet (p :: m) u = if p.1 = u then some p.2 else mapGet m u := by
  by_cases h : p.1 = u
  · simp [mapGet, List.find?_cons_of_pos, h]
  · rw [if_neg h]
    unfold mapGet
    rw [List.find?_cons_of_neg]
    simpa using h

theorem mapGet_isSome_iff {α : Type} (m : List (Token × α)) (k : Token) :
    (mapGet m k).isSome = true ↔ k ∈ mapKeys m := by
  induction m with
  | nil => simp [mapGet, mapKeys]
  | cons p rest ih =>
    rw [mapGet_cons]
    by_cases h : p.1 = k
    · simp [mapKeys, h]
    · simp only [if_neg h, mapKeys, List.map_cons, List.mem_cons]
      rw [ih]
      simp only [mapKeys]
      constructor
      · exact fun hk => Or.inr hk
      · rintro (hk | hk)
        · exact absurd hk.symm h
        · exact hk

theorem mapGet_eq_none_iff {α : Type} (m : List (Token × α)) (k : Token) :
    mapGet m k = none ↔ k ∉ mapKeys m := by
  rw [← mapGet_isSome_iff]
  cases mapGet m k <;> simp

theorem mapGet_overwrite_self {α : Type} (m : List (Token × α)) (k : Token) (v : α)
    (h : k ∈ mapKeys m) :
    mapGet (m.map (fun p => if p.1 == k then (k, v) else p)) k = some v := by
  induction m with
  | nil => simp [mapKeys] at h
  | cons p rest ih =>
    simp only [List.map_cons]
    by_cases hp : p.1 = k
    · rw [if_pos (by simpa using hp)]
      rw [mapGet_cons]
      simp
    · rw [if_neg (by simpa using hp)]
      rw [mapGet_cons, if_neg hp]
      apply ih
      simp only [mapKeys, List.map_cons, List.mem_cons] at h
      rcases h with h | h
      · exact absurd h.symm hp
      · exact h

theorem mapGet_overwrite_ne {α : Type} (m : List (Token × α)) (k u : Token) (v : α)
    (h : u ≠ k) :
    mapGet (m.map (fun p => if p.1 == k then (k, v) else p)) u = mapGet m u := by
  induction m with
  | nil => simp
  | cons p rest ih =>
    simp only [List.map_cons]
    by_cases hp : p.1 = k
    · rw [if_pos (by simpa using hp)]
      rw [mapGet_cons, mapGet_cons]
      rw [if_neg (fun he : (k, v).1 = u => h he.symm),
        if_neg (fun he : p.1 = u => h (he.symm.trans hp))]
      exact ih
    · rw [if_neg (by simpa using hp)]
      rw [mapGet_cons, mapGet_cons]
      by_cases hu : p.1 = u
      · rw [if_pos hu, if_pos hu]
      · rw [if_neg hu, if_neg hu]
        exact ih

theorem mapGet_append_right {α : Type} (m : List (Token × α)) (p : Token × α) (u : Token)
    (h : mapGet m u = none) :
    mapGet (m ++ [p]) u = mapGet [p] u := by
  unfold mapGet at *
  rw [List.find?_append]
  rcases Option.map_eq_none'.mp h with h2
  rw [h2]
  rfl

theorem mapGet_mapSet_self {α : Type} (m : List (Token × α)) (k : Token) (v : α) :
    mapGet (mapSet m k v) k = some v := by
  unfold mapSet
  by_cases h : mapHas m k = true
  · rw [if_pos h]
    unfold mapHas at h
    exact mapGet_overwrite_self m k v ((mapGet_isSome_iff m k).mp h)
  · rw [if_neg h]
    have hn : mapGet m k = none := by
      unfold mapHas at h
      cases hg : mapGet m k with
      | none => rfl
      | some w => rw [hg] at h; simp at h
    rw [mapGet_append_right m (k, v) k hn]
    rw [mapGet_cons]
    simp

theorem mapGet_mapSet_ne {α : Type} (m : List (Token × α)) (k u : Token) (v : α) (h : u ≠ k) :
    mapGet (mapSet m k v) u = mapGet m u := by
  unfold mapSet
  by_cases hh : mapHas m k = true
  · rw [if_pos hh]
    exact mapGet_overwrite_ne m k u v h
  · rw [if_neg hh]
    cases hg : mapGet m u with
    | some w =>
      unfold mapGet at hg ⊢
      rw [List.find?_append]
      rcases Option.map_eq_some'.mp hg with ⟨pr, hf, hp⟩
      rw [hf]
      simp [hp]
    | none =>
      rw [mapGet_append_right m (k, v) u hg]
      rw [mapGet_cons]
      rw [if_neg (fun he : (k, v).1 = u => h he.symm)]
      simp [mapGet]

theorem mapSet_fresh {α : Type} (m : List (Token × α)) (k : Token) (v : α)
    (h : mapHas m k = false) : mapSet m k v = m ++ [(k, v)] := by
  unfold mapSet
  rw [if_neg (by simp [h])]

theorem mapGet_graphFromServiceMap (m : RegMap) (t : Token) :
    mapGet (graphFromServiceMap m) t = (mapGet m t).map (fun d => d.requires) := by
  induction m with
  | nil => simp [graphFromServiceMap, mapGet]
  | cons p rest ih =>
    simp only [graphFromServiceMap, List.map_cons] at *
    rw [mapGet_cons, mapGet_cons]
    by_cases hp : p.1 = t
    · simp [hp]
    · simp only [if_neg hp]
      exact ih

theorem mapKeys_graphFromServiceMap (m : RegMap) :
    mapKeys (graphFromServiceMap m) = mapKeys m := by
  simp [mapKeys, graphFromServiceMap]

theorem edge_mem_mapKeys (g : Graph) (u v : Token) (h : EdgeG g u v) : u ∈ mapKeys g := by
  unfold EdgeG neighbors at h
  cases hg : mapGet g u with
  | none => rw [hg] at h; simp at h
  | some l => exact (mapGet_isSome_iff g u).mp (by simp [hg])

theorem neighbors_subset_uNodes (g : Graph) (u : Token) :
    ∀ v ∈ neighbors g u, v ∈ uNodes g := by
  intro v hv
  unfold neighbors at hv
  cases hg : mapGet g u with
  | none => rw [hg] at hv; simp at hv
  | some l =>
    rw [hg] at hv
    simp only [Option.getD_some] at hv
    unfold mapGet at hg
    rcases Option.map_eq_some'.mp hg with ⟨pr, hfind, hsnd⟩
    have hmem : pr ∈ g := List.mem_of_find?_eq_some hfind
    unfold uNodes
    rw [List.mem_append]
    right
    rw [List.mem_flatten]
    refine ⟨l, ?_, hv⟩
    rw [List.mem_map]
    exact ⟨pr, hmem, hsnd⟩

theorem mapKeys_subset_uNodes (g : Graph) : ∀ u ∈ mapKeys g, u ∈ uNodes g := by
  intro u hu
  unfold uNodes
  rw [List.mem_append]
  exact Or.inl hu

/-! ### DFS cycle-detection correctness -/

theorem missCount_lt (g : Graph) (V : List Token) (node : Token)
    (hU : node ∈ uNodes g) (hV : node ∉ V) :
    missCount g (setAdd V node) < missCount g V := by
  unfold missCount setAdd
  rw [if_neg (by simpa using hV)]
  have htf : (V ++ [node]).toFinset = insert node V.toFinset := by
    simp [List.toFinset_append]
    exact Finset.union_comm _ _
  rw [htf]
  have hsd : (uNodes g).toFinset \ insert node V.toFinset
      = ((uNodes g).toFinset \ V.toFinset).erase node := by
    ext x
    simp [Finset.mem_sdiff, Finset.mem_erase]
    tauto
  rw [hsd]
  apply Finset.card_erase_lt_of_mem
  rw [Finset.mem_sdiff]
  exact ⟨List.mem_toFinset.mpr hU, fun hx => hV (List.mem_toFinset.mp hx)⟩

theorem missCount_mono (g : Graph) (V V2 : List Token) (h : ∀ x ∈ V, x ∈ V2) :
    missCount g V2 ≤ missCount g V := by
  unfold missCount
  apply Finset.card_le_card
  apply Finset.sdiff_subset_sdiff (le_refl _)
  intro x hx
  exact List.mem_toFinset.mpr (h x (List.mem_toFinset.mp hx))

theorem dfs_false_inv (fuel : Nat) :
    (∀ g node V R V2 R2, hasCycle fuel g node V R = some (false, V2, R2) →
       R2 = R ∧ (∀ x ∈ V, x ∈ V2) ∧ node ∈ V2 ∧ node ∉ R) ∧
    (∀ g ns V R V2 R2, hasCycleList fuel g ns V R = some (false, V2, R2) →
       R2 = R ∧ (∀ x ∈ V, x ∈ V2) ∧ (∀ n ∈ ns, n ∈ V2)) := by
  induction fuel with
  | zero =>
    constructor
    · intro g node V R V2 R2 h
      simp [hasCycle] at h
    · intro g ns V R V2 R2 h
      cases ns with
      | nil =>
        unfold hasCycleList at h
        injection h with h
        injection h with h1 h2
        injection h2 with h2 h3
        subst h2; subst h3
        exact ⟨rfl, fun x hx => hx, by simp⟩
      | cons n rest =>
        unfold hasCycleList at h
        simp [hasCycle] at h
  | succ fuel ih =>
    have hc : ∀ g node V R V2 R2, hasCycle (fuel + 1) g node V R = some (false, V2, R2) →
        R2 = R ∧ (∀ x ∈ V, x ∈ V2) ∧ node ∈ V2 ∧ node ∉ R := by
      intro g node V R V2 R2 h
      unfold hasCycle at h
      by_cases hr : setMem R node = true
      · rw [if_pos hr] at h
        simp at h
      · rw [if_neg hr] at h
        have hrm : node ∉ R := fun hm => hr ((setMem_iff R node).mpr hm)
        by_cases hv : setMem V node = true
        · rw [if_pos hv] at h
          injection h with h
          injection h with h1 h2
          injection h2 with h2 h3
          subst h2; subst h3
          exact ⟨rfl, fun x hx => hx, (setMem_iff V node).mp hv, hrm⟩
        · rw [if_neg hv] at h
          cases hl : hasCycleList fuel g (neighbors g node) (setAdd V node) (setAdd R node) with
          | none => rw [hl] at h; simp at h
          | some res =>
            obtain ⟨b, v2, r2⟩ := res
            rw [hl] at h
            cases b with
            | true => simp at h
            | false =>
              simp only [] at h
              injection h with h
              injection h with h1 h2
              injection h2 with h2 h3
              subst h2; subst h3
              obtain ⟨hr2, hmono, hns⟩ := ih.2 g (neighbors g node) (setAdd V node) (setAdd R node) v2 r2 hl
              have hvm : node ∉ V := fun hm => hv ((setMem_iff V node).mpr hm)
              refine ⟨?_, ?_, ?_, hrm⟩
              · rw [hr2]
                exact setDel_setAdd_self R node hrm
              · intro x hx
                exact hmono x ((mem_setAdd V node x).mpr (Or.inl hx))
              · exact hmono node ((mem_setAdd V node node).mpr (Or.inr rfl))
    have hlst : ∀ ns g V R V2 R2, hasCycleList (fuel + 1) g ns V R = some (false, V2, R2) →
        R2 = R ∧ (∀ x ∈ V, x ∈ V2) ∧ (∀ n ∈ ns, n ∈ V2) := by
      intro ns
      induction ns with
      | nil =>
        intro g V R V2 R2 h
        unfold hasCycleList at h
        injection h with h
        injection h with h1 h2
        injection h2 with h2 h3
        subst h2; subst h3
        exact ⟨rfl, fun x hx => hx, by simp⟩
      | cons n rest ihl =>
        intro g V R V2 R2 h
        unfold hasCycleList at h
        cases hcall : hasCycle (fuel + 1) g n V R with
        | none => rw [hcall] at h; simp at h
        | some res =>
          obtain ⟨b, vm, rm⟩ := res
          rw [hcall] at h
          cases b with
          | true => simp at h
          | false =>
            simp only [] at h
            obtain ⟨hrm, hmono1, hnvm, _⟩ := hc g n V R vm rm hcall
            obtain ⟨hr2, hmono2, hrest⟩ := ihl g vm rm V2 R2 h
            refine ⟨hr2.trans hrm, fun x hx => hmono2 x (hmono1 x hx), ?_⟩
            intro x hx
            rcases List.mem_cons.mp hx with hx | hx
            · subst hx; exact hmono2 x hnvm
            · exact hrest x hx
    exact ⟨hc, fun g ns V R V2 R2 h => hlst ns g V R V2 R2 h⟩

theorem dfs_adequacy (fuel : Nat) :
    (∀ g node V R, node ∈ uNodes g → missCount g V < fuel →
       (hasCycle fuel g node V R).isSome = true) ∧
    (∀ g ns V R, (∀ n ∈ ns, n ∈ uNodes g) → missCount g V < fuel →
       (hasCycleList fuel g ns V R).isSome = true) := by
  induction fuel with
  | zero =>
    exact ⟨fun g node V R _ hm => absurd hm (by simp),
      fun g ns V R _ hm => absurd hm (by simp)⟩
  | succ fuel ih =>
    have hc : ∀ g node V R, node ∈ uNodes g → missCount g V < fuel + 1 →
        (hasCycle (fuel + 1) g node V R).isSome = true := by
      intro g node V R hU hm
      unfold hasCycle
      by_cases hr : setMem R node = true
      · rw [if_pos hr]; rfl
      · rw [if_neg hr]
        by_cases hv : setMem V node = true
        · rw [if_pos hv]; rfl
        · rw [if_neg hv]
          have hvm : node ∉ V := fun hmem => hv ((setMem_iff V node).mpr hmem)
          have hlt : missCount g (setAdd V node) < fuel := by
            have h1 := missCount_lt g V node hU hvm
            omega
          have hlist := ih.2 g (neighbors g node) (setAdd V node) (setAdd R node)
            (neighbors_subset_uNodes g node) hlt
          cases hl : hasCycleList fuel g (neighbors g node) (setAdd V node) (setAdd R node) with
          | none => rw [hl] at hlist; simp at hlist
          | some res =>
            obtain ⟨b, v2, r2⟩ := res
            cases b <;> simp
    have hlst : ∀ ns g V R, (∀ n ∈ ns, n ∈ uNodes g) → missCount g V < fuel + 1 →
        (hasCycleList (fuel + 1) g ns V R).isSome = true := by
      intro ns
      induction ns with
      | nil => intro g V R _ _; simp [hasCycleList]
      | cons n rest ihl =>
        intro g V R hU hm
        unfold hasCycleList
        have hcall := hc g n V R (hU n (by simp)) hm
        cases hres : hasCycle (fuel + 1) g n V R with
        | none => rw [hres] at hcall; simp at hcall
        | some res =>
          obtain ⟨b, v2, r2⟩ := res
          cases b with
          | true => rfl
          | false =>
            simp only []
            obtain ⟨_, hmono, _, _⟩ := (dfs_false_inv (fuel + 1)).1 g n V R v2 r2 hres
            exact ihl g v2 r2 (fun x hx => hU x (by simp [hx])) (lt_of_le_of_lt (missCount_mono g V v2 hmono) hm)
    exact ⟨hc, fun g ns V R h hm => hlst ns g V R h hm⟩

theorem dfs_sound (fuel : Nat) :
    (∀ g node V R V2 R2, hasCycle fuel g node V R = some (true, V2, R2) →
       (∀ r ∈ R, Relation.TransGen (EdgeG g) r node) → HasCycleProp g) ∧
    (∀ g ns V R V2 R2, hasCycleList fuel g ns V R = some (true, V2, R2) →
       (∀ n ∈ ns, ∀ r ∈ R, Relation.TransGen (EdgeG g) r n) → HasCycleProp g) := by
  induction fuel with
  | zero =>
    constructor
    · intro g node V R V2 R2 h
      simp [hasCycle] at h
    · intro g ns V R V2 R2 h
      cases ns with
      | nil => unfold hasCycleList at h; simp at h
      | cons n rest => unfold hasCycleList at h; simp [hasCycle] at h
  | succ fuel ih =>
    have hc : ∀ g node V R V2 R2, hasCycle (fuel + 1) g node V R = some (true, V2, R2) →
        (∀ r ∈ R, Relation.TransGen (EdgeG g) r node) → HasCycleProp g := by
      intro g node V R V2 R2 h hR
      unfold hasCycle at h
      by_cases hr : setMem R node = true
      · exact ⟨node, hR node ((setMem_iff R node).mp hr)⟩
      · rw [if_neg hr] at h
        by_cases hv : setMem V node = true
        · rw [if_pos hv] at h; simp at h
        · rw [if_neg hv] at h
          cases hl : hasCycleList fuel g (neighbors g node) (setAdd V node) (setAdd R node) with
          | none => rw [hl] at h; simp at h
          | some res =>
            obtain ⟨b, v2, r2⟩ := res
            rw [hl] at h
            cases b with
            | false => simp at h
            | true =>
              refine ih.2 g (neighbors g node) (setAdd V node) (setAdd R node) v2 r2 hl ?_
              intro n hn r hrmem
              rcases (mem_setAdd R node r).mp hrmem with hmem | heq
              · exact Relation.TransGen.tail (hR r hmem) hn
              · subst heq
                exact Relation.TransGen.single hn
    have hlst : ∀ ns g V R V2 R2, hasCycleList (fuel + 1) g ns V R = some (true, V2, R2) →
        (∀ n ∈ ns, ∀ r ∈ R, Relation.TransGen (EdgeG g) r n) → HasCycleProp g := by
      intro ns
      induction ns with
      | nil =>
        intro g V R V2 R2 h
        unfold hasCycleList at h; simp at h
      | cons n rest ihl =>
        intro g V R V2 R2 h hR
        unfold hasCycleList at h
        cases hcall : hasCycle (fuel + 1) g n V R with
        | none => rw [hcall] at h; simp at h
        | some res =>
          obtain ⟨b, vm, rm⟩ := res
          rw [hcall] at h
          cases b with
          | true => exact hc g n V R vm rm hcall (fun r hr => hR n (by simp) r hr)
          | false =>
            simp only [] at h
            obtain ⟨hrm, _, _, _⟩ := (dfs_false_inv (fuel + 1)).1 g n V R vm rm hcall
            subst hrm
            exact ihl g vm rm V2 R2 h (fun x hx r hr => hR x (by simp [hx]) r hr)
    exact ⟨hc, fun g ns V R V2 R2 h hR => hlst ns g V R V2 R2 h hR⟩

theorem noCycleFrom_of_neighbors (g : Graph) (node : Token)
    (h : ∀ n ∈ neighbors g node, noCycleFrom g n) : noCycleFrom g node := by
  intro u hru hcyc
  rcases Relation.ReflTransGen.cases_head hru with he | ⟨b, hb, hbu⟩
  · subst he
    rcases (Relation.TransGen.head'_iff).mp hcyc with ⟨b, hb, hbnode⟩
    exact h b hb node hbnode hcyc
  · exact h b hb u hbu hcyc

theorem dfs_complete (fuel : Nat) :
    (∀ g node V R V2 R2, hasCycle fuel g node V R = some (false, V2, R2) → okE g V R →
       okE g V2 R ∧ noCycleFrom g node) ∧
    (∀ g ns V R V2 R2, hasCycleList fuel g ns V R = some (false, V2, R2) → okE g V R →
       okE g V2 R ∧ (∀ n ∈ ns, noCycleFrom g n)) := by
  induction fuel with
  | zero =>
    constructor
    · intro g node V R V2 R2 h
      simp [hasCycle] at h
    · intro g ns V R V2 R2 h hok
      cases ns with
      | nil =>
        unfold hasCycleList at h
        injection h with h
        injection h with h1 h2
        injection h2 with h2 h3
        subst h2
        exact ⟨hok, by simp⟩
      | cons n rest => unfold hasCycleList at h; simp [hasCycle] at h
  | succ fuel ih =>
    have hc : ∀ g node V R V2 R2, hasCycle (fuel + 1) g node V R = some (false, V2, R2) →
        okE g V R → okE g V2 R ∧ noCycleFrom g node := by
      intro g node V R V2 R2 h hok
      unfold hasCycle at h
      by_cases hr : setMem R node = true
      · rw [if_pos hr] at h; simp at h
      · rw [if_neg hr] at h
        have hrm : node ∉ R := fun hm => hr ((setMem_iff R node).mpr hm)
        by_cases hv : setMem V node = true
        · rw [if_pos hv] at h
          injection h with h
          injection h with h1 h2
          injection h2 with h2 h3
          subst h2
          exact ⟨hok, hok node ((setMem_iff V node).mp hv) hrm⟩
        · rw [if_neg hv] at h
          cases hl : hasCycleList fuel g (neighbors g node) (setAdd V node) (setAdd R node) with
          | none => rw [hl] at h; simp at h
          | some res =>
            obtain ⟨b, v2, r2⟩ := res
            rw [hl] at h
            cases b with
            | true => simp at h
            | false =>
              simp only [] at h
              injection h with h
              injection h with h1 h2
              injection h2 with h2 h3
              subst h2
              have hok1 : okE g (setAdd V node) (setAdd R node) := by
                intro x hx hxr
                rcases (mem_setAdd V node x).mp hx with hxv | hxe
                · exact hok x hxv (fun hxr2 => hxr ((mem_setAdd R node x).mpr (Or.inl hxr2)))
                · exact absurd ((mem_setAdd R node x).mpr (Or.inr hxe)) hxr
              obtain ⟨hok2, hnbs⟩ := ih.2 g (neighbors g node) (setAdd V node) (setAdd R node) v2 r2 hl hok1
              have hnode : noCycleFrom g node := noCycleFrom_of_neighbors g node hnbs
              refine ⟨?_, hnode⟩
              intro x hx hxr
              by_cases hxe : x = node
              · subst hxe; exact hnode
              · exact hok2 x hx (fun hm => by
                  rcases (mem_setAdd R node x).mp hm with hm | hm
                  · exact hxr hm
                  · exact hxe hm)
    have hlst : ∀ ns g V R V2 R2, hasCycleList (fuel + 1) g ns V R = some (false, V2, R2) →
        okE g V R → okE g V2 R ∧ (∀ n ∈ ns, noCycleFrom g n) := by
      intro ns
      induction ns with
      | nil =>
        intro g V R V2 R2 h hok
        unfold hasCycleList at h
        injection h with h
        injection h with h1 h2
        injection h2 with h2 h3
        subst h2
        exact ⟨hok, by simp⟩
      | cons n rest ihl =>
        intro g V R V2 R2 h hok
        unfold hasCycleList at h
        cases hcall : hasCycle (fuel + 1) g n V R with
        | none => rw [hcall] at h; simp at h
        | some res =>
          obtain ⟨b, vm, rm⟩ := res
          rw [hcall] at h
          cases b with
          | true => simp at h
          | false =>
            simp only [] at h
            obtain ⟨hrm, _, _, _⟩ := (dfs_false_inv (fuel + 1)).1 g n V R vm rm hcall
            rw [hrm] at h
            obtain ⟨hokm, hn⟩ := hc g n V R vm rm hcall hok
            obtain ⟨hok2, hrest⟩ := ihl g vm R V2 R2 h hokm
            refine ⟨hok2, ?_⟩
            intro x hx
            rcases List.mem_cons.mp hx with hx | hx
            · subst hx; exact hn
            · exact hrest x hx
    exact ⟨hc, fun g ns V R V2 R2 h hok => hlst ns g V R V2 R2 h hok⟩

theorem isCyclicLoop_sound (fuel : Nat) (g : Graph) :
    ∀ nodes V, isCyclicLoop fuel g nodes V [] = some true → HasCycleProp g := by
  intro nodes
  induction nodes with
  | nil => intro V h; simp [isCyclicLoop] at h
  | cons n rest ih =>
    intro V h
    unfold isCyclicLoop at h
    cases hcall : hasCycle fuel g n V [] with
    | none => rw [hcall] at h; simp at h
    | some res =>
      obtain ⟨b, v2, r2⟩ := res
      rw [hcall] at h
      cases b with
      | true => exact (dfs_sound fuel).1 g n V [] v2 r2 hcall (by simp)
      | false =>
        simp only [] at h
        obtain ⟨hr2, _, _, _⟩ := (dfs_false_inv fuel).1 g n V [] v2 r2 hcall
        subst hr2
        exact ih v2 h

theorem isCyclicLoop_complete (fuel : Nat) (g : Graph) :
    ∀ nodes V, isCyclicLoop fuel g nodes V [] = some false → okE g V [] →
      ∀ n ∈ nodes, noCycleFrom g n := by
  intro nodes
  induction nodes with
  | nil => intro V _ _ n hn; simp at hn
  | cons n rest ih =>
    intro V h hok
    unfold isCyclicLoop at h
    cases hcall : hasCycle fuel g n V [] with
    | none => rw [hcall] at h; simp at h
    | some res =>
      obtain ⟨b, v2, r2⟩ := res
      rw [hcall] at h
      cases b with
      | true => simp at h
      | false =>
        simp only [] at h
        obtain ⟨hr2, _, _, _⟩ := (dfs_false_inv fuel).1 g n V [] v2 r2 hcall
        rw [hr2] at h
        obtain ⟨hok2, hn⟩ := (dfs_complete fuel).1 g n V [] v2 r2 hcall hok
        intro x hx
        rcases List.mem_cons.mp hx with hx | hx
        · subst hx; exact hn
        · exact ih v2 h hok2 x hx

theorem isCyclicLoop_adequate (fuel : Nat) (g : Graph) :
    ∀ nodes V R, (∀ n ∈ nodes, n ∈ uNodes g) → missCount g V < fuel →
      (isCyclicLoop fuel g nodes V R).isSome = true := by
  intro nodes
  induction nodes with
  | nil => intro V R _ _; simp [isCyclicLoop]
  | cons n rest ih =>
    intro V R hU hm
    unfold isCyclicLoop
    have hcall := (dfs_adequacy fuel).1 g n V R (hU n (by simp)) hm
    cases hres : hasCycle fuel g n V R with
    | none => rw [hres] at hcall; simp at hcall
    | some res =>
      obtain ⟨b, v2, r2⟩ := res
      cases b with
      | true => rfl
      | false =>
        simp only []
        obtain ⟨_, hmono, _, _⟩ := (dfs_false_inv fuel).1 g n V R v2 r2 hres
        exact ih v2 r2 (fun x hx => hU x (by simp [hx]))
          (lt_of_le_of_lt (missCount_mono g V v2 hmono) hm)

/-- Correctness of the source's cycle detector: `isCyclic` returns `true`
exactly when the dependency graph contains a directed cycle. -/
theorem isCyclic_iff (g : Graph) : isCyclic g = true ↔ HasCycleProp g := by
  unfold isCyclic
  have hmc : missCount g [] < (uNodes g).length + 1 := by
    unfold missCount
    have h1 : ([] : List Token).toFinset = ∅ := rfl
    rw [h1, Finset.sdiff_empty]
    exact Nat.lt_succ_of_le (uNodes g).toFinset_card_le
  have hiso := isCyclicLoop_adequate ((uNodes g).length + 1) g (mapKeys g) [] []
    (mapKeys_subset_uNodes g) hmc
  cases hres : isCyclicLoop ((uNodes g).length + 1) g (mapKeys g) [] [] with
  | none => rw [hres] at hiso; simp at hiso
  | some b =>
    rw [Option.getD_some]
    cases b with
    | true =>
      simp only [true_iff]
      exact isCyclicLoop_sound _ g (mapKeys g) [] hres
    | false =>
      constructor
      · intro hfalse; exact absurd hfalse (by simp)
      · rintro ⟨u, hu⟩
        have hkeys := isCyclicLoop_complete _ g (mapKeys g) [] hres (fun v hv _ => by simp at hv)
        rcases (Relation.TransGen.head'_iff).mp hu with ⟨b2, hb2, _⟩
        have humem : u ∈ mapKeys g := edge_mem_mapKeys g u b2 hb2
        exact absurd hu (hkeys u humem u Relation.ReflTransGen.refl)

/-! ### Resolver unfolding lemmas -/

theorem internalResolve_zero (regs : Chain) (t : Token) (s : St) :
    internalResolve 0 regs t s = (.error .outOfFuel, s) := by
  simp only [internalResolve]

theorem internalResolve_nilchain (fuel : Nat) (t : Token) (s : St) :
    internalResolve (fuel + 1) [] t s = (.ok .vundef, s) := by
  simp only [internalResolve]

theorem internalResolve_unregistered (fuel : Nat) (r : RegMap) (rest : Chain) (t : Token)
    (s : St) (h : mapGet r t = none) :
    internalResolve (fuel + 1) (r :: rest) t s = (.ok .vundef, s) := by
  simp only [internalResolve, h]

theorem internalResolve_scoped_eq (fuel : Nat) (r : RegMap) (rest : Chain) (t : Token)
    (d : ServiceDefinition) (s : St) (h : mapGet r t = some d) (hl : d.lifetime = .scoped) :
    internalResolve (fuel + 1) (r :: rest) t s = cacheOrConstruct fuel (r :: rest) t d s := by
  simp only [internalResolve, h, hl]

theorem internalResolve_singleton_root (fuel : Nat) (r : RegMap) (t : Token)
    (d : ServiceDefinition) (s : St) (h : mapGet r t = some d) (hl : d.lifetime = .singleton) :
    internalResolve (fuel + 1) [r] t s = cacheOrConstruct fuel [r] t d s := by
  simp only [internalResolve, h, hl]

theorem internalResolve_singleton_probe_truthy (fuel : Nat) (r r2 : RegMap) (rest2 : Chain)
    (t : Token) (d : ServiceDefinition) (s : St) (pv : JSVal) (ps : St)
    (h : mapGet r t = some d) (hl : d.lifetime = .singleton)
    (hp : internalResolve fuel (r2 :: rest2) t (subSt s) = (.ok pv, ps))
    (ht : pv.truthy = true) :
    internalResolve (fuel + 1) (r :: r2 :: rest2) t s = (.ok pv, reSt s ps) := by
  simp only [internalResolve, h, hl, hp, ht, if_true]

theorem internalResolve_singleton_probe_falsy (fuel : Nat) (r r2 : RegMap) (rest2 : Chain)
    (t : Token) (d : ServiceDefinition) (s : St) (pv : JSVal) (ps : St)
    (h : mapGet r t = some d) (hl : d.lifetime = .singleton)
    (hp : internalResolve fuel (r2 :: rest2) t (subSt s) = (.ok pv, ps))
    (ht : pv.truthy = false) :
    internalResolve (fuel + 1) (r :: r2 :: rest2) t s =
      cacheOrConstruct fuel (r :: r2 :: rest2) t d (reSt s ps) := by
  simp only [internalResolve, h, hl, hp, ht, if_false, Bool.false_eq_true]

theorem internalResolve_singleton_probe_error (fuel : Nat) (r r2 : RegMap) (rest2 : Chain)
    (t : Token) (d : ServiceDefinition) (s : St) (e : DIError) (ps : St)
    (h : mapGet r t = some d) (hl : d.lifetime = .singleton)
    (hp : internalResolve fuel (r2 :: rest2) t (subSt s) = (.error e, ps)) :
    internalResolve (fuel + 1) (r :: r2 :: rest2) t s = (.error e, reSt s ps) := by
  simp only [internalResolve, h, hl, hp]

theorem internalResolve_transient_root (fuel : Nat) (r : RegMap) (t : Token)
    (d : ServiceDefinition) (s : St) (h : mapGet r t = some d) (hl : d.lifetime = .transient) :
    internalResolve (fuel + 1) [r] t s = constructInstance fuel [r] t d s := by
  simp only [internalResolve, h, hl]

theorem internalResolve_transient_probe_truthy (fuel : Nat) (r r2 : RegMap) (rest2 : Chain)
    (t : Token) (d : ServiceDefinition) (s : St) (pv : JSVal) (ps : St)
    (h : mapGet r t = some d) (hl : d.lifetime = .transient)
    (hp : internalResolve fuel (r2 :: rest2) t (subSt s) = (.ok pv, ps))
    (ht : pv.truthy = true) :
    internalResolve (fuel + 1) (r :: r2 :: rest2) t s = (.ok pv, reSt s ps) := by
  simp only [internalResolve, h, hl, hp, ht, if_true]

theorem internalResolve_transient_probe_falsy (fuel : Nat) (r r2 : RegMap) (rest2 : Chain)
    (t : Token) (d : ServiceDefinition) (s : St) (pv : JSVal) (ps : St)
    (h : mapGet r t = some d) (hl : d.lifetime = .transient)
    (hp : internalResolve fuel (r2 :: rest2) t (subSt s) = (.ok pv, ps))
    (ht : pv.truthy = false) :
    internalResolve (fuel + 1) (r :: r2 :: rest2) t s =
      constructInstance fuel (r :: r2 :: rest2) t d (reSt s ps) := by
  simp only [internalResolve, h, hl, hp, ht, if_false, Bool.false_eq_true]

theorem internalResolve_transient_probe_error (fuel : Nat) (r r2 : RegMap) (rest2 : Chain)
    (t : Token) (d : ServiceDefinition) (s : St) (e : DIError) (ps : St)
    (h : mapGet r t = some d) (hl : d.lifetime = .transient)
    (hp : internalResolve fuel (r2 :: rest2) t (subSt s) = (.error e, ps)) :
    internalResolve (fuel + 1) (r :: r2 :: rest2) t s = (.error e, reSt s ps) := by
  simp only [internalResolve, h, hl, hp]

theorem cacheOrConstruct_hit (fuel : Nat) (regs : Chain) (t : Token) (d : ServiceDefinition)
    (s : St) (h : (headCached s t).truthy = true) :
    cacheOrConstruct fuel regs t d s = (.ok (headCached s t), s) := by
  simp only [cacheOrConstruct, h, if_true]

theorem cacheOrConstruct_miss_ok (fuel : Nat) (regs : Chain) (t : Token) (d : ServiceDefinition)
    (s : St) (v : JSVal) (s1 : St) (h : (headCached s t).truthy = false)
    (hc : constructInstance fuel regs t d s = (.ok v, s1)) :
    cacheOrConstruct fuel regs t d s = (.ok v, setHeadCache s1 t v) := by
  simp only [cacheOrConstruct, h, if_false, Bool.false_eq_true, hc]

theorem cacheOrConstruct_miss_error (fuel : Nat) (regs : Chain) (t : Token)
    (d : ServiceDefinition) (s : St) (e : DIError) (s1 : St)
    (h : (headCached s t).truthy = false)
    (hc : constructInstance fuel regs t d s = (.error e, s1)) :
    cacheOrConstruct fuel regs t d s = (.error e, s1) := by
  simp only [cacheOrConstruct, h, if_false, Bool.false_eq_true, hc]

theorem constructInstance_ok (fuel : Nat) (regs : Chain) (t : Token) (d : ServiceDefinition)
    (s : St) (vs : List JSVal) (s1 : St)
    (hd : resolveMany fuel regs d.requires s = (.ok vs, s1)) :
    constructInstance fuel regs t d s =
      (.ok (d.factory vs s1.fresh).1,
        { s1 with fresh := (d.factory vs s1.fresh).2, trace := s1.trace ++ [(t, vs)] }) := by
  simp only [constructInstance, hd]

theorem constructInstance_error (fuel : Nat) (regs : Chain) (t : Token) (d : ServiceDefinition)
    (s : St) (e : DIError) (s1 : St)
    (hd : resolveMany fuel regs d.requires s = (.error e, s1)) :
    constructInstance fuel regs t d s = (.error e, s1) := by
  simp only [constructInstance, hd]

theorem resolveMany_nil (fuel : Nat) (regs : Chain) (s : St) :
    resolveMany fuel regs [] s = (.ok [], s) := by
  simp only [resolveMany]

theorem resolveTop_of_internal_truthy (fuel : Nat) (regs : Chain) (t : Token) (s : St)
    (v : JSVal) (s1 : St) (h : internalResolve fuel regs t s = (.ok v, s1))
    (ht : v.truthy = true) :
    resolveTop fuel regs t s = (.ok v, s1) := by
  simp only [resolveTop, h, ht, if_true]

theorem resolveTop_of_internal_falsy (fuel : Nat) (regs : Chain) (t : Token) (s : St)
    (v : JSVal) (s1 : St) (h : internalResolve fuel regs t s = (.ok v, s1))
    (ht : v.truthy = false) :
    resolveTop fuel regs t s = (.error .missingRegistration, s1) := by
  simp only [resolveTop, h, ht, if_false, Bool.false_eq_true]

theorem resolveTop_of_internal_error (fuel : Nat) (regs : Chain) (t : Token) (s : St)
    (e : DIError) (s1 : St) (h : internalResolve fuel regs t s = (.error e, s1)) :
    resolveTop fuel regs t s = (.error e, s1) := by
  simp only [resolveTop, h]

theorem resolveTop_ok_truthy (fuel : Nat) (regs : Chain) (t : Token) (s : St)
    (v : JSVal) (s1 : St) (h : resolveTop fuel regs t s = (.ok v, s1)) :
    v.truthy = true ∧ internalResolve fuel regs t s = (.ok v, s1) := by
  cases hi : internalResolve fuel regs t s with
  | mk res si =>
    cases res with
    | ok w =>
      by_cases ht : w.truthy = true
      · rw [resolveTop_of_internal_truthy fuel regs t s w si hi ht] at h
        injection h with h1 h2
        injection h1 with h1
        subst h1; subst h2
        exact ⟨ht, rfl⟩
      · rw [resolveTop_of_internal_falsy fuel regs t s w si hi (by simpa using ht)] at h
        simp at h
    | error e =>
      rw [resolveTop_of_internal_error fuel regs t s e si hi] at h
      simp at h

/-! ### Error classification and trace growth of the resolver -/

theorem resolve_error_class (fuel : Nat) :
    (∀ regs t s e s1, internalResolve fuel regs t s = (.error e, s1) →
       e = .missingRegistration ∨ e = .outOfFuel) ∧
    (∀ regs t s e s1, resolveTop fuel regs t s = (.error e, s1) →
       e = .missingRegistration ∨ e = .outOfFuel) ∧
    (∀ regs ts s e s1, resolveMany fuel regs ts s = (.error e, s1) →
       e = .missingRegistration ∨ e = .outOfFuel) ∧
    (∀ regs t d s e s1, constructInstance fuel regs t d s = (.error e, s1) →
       e = .missingRegistration ∨ e = .outOfFuel) ∧
    (∀ regs t d s e s1, cacheOrConstruct fuel regs t d s = (.error e, s1) →
       e = .missingRegistration ∨ e = .outOfFuel) := by
  induction fuel with
  | zero =>
    have hir : ∀ (regs : Chain) t s e s1, internalResolve 0 regs t s = (.error e, s1) →
        e = .missingRegistration ∨ e = .outOfFuel := by
      intro regs t s e s1 h
      rw [internalResolve_zero] at h
      injection h with h1 h2
      injection h1 with h1
      exact Or.inr h1.symm
    have hrt : ∀ (regs : Chain) t s e s1, resolveTop 0 regs t s = (.error e, s1) →
        e = .missingRegistration ∨ e = .outOfFuel := by
      intro regs t s e s1 h
      rw [resolveTop_of_internal_error 0 regs t s .outOfFuel s (internalResolve_zero regs t s)] at h
      injection h with h1 h2
      injection h1 with h1
      exact Or.inr h1.symm
    have hrm : ∀ (regs : Chain) ts s e s1, resolveMany 0 regs ts s = (.error e, s1) →
        e = .missingRegistration ∨ e = .outOfFuel := by
      intro regs ts s e s1 h
      cases ts with
      | nil => rw [resolveMany_nil] at h; simp at h
      | cons t rest =>
        have hrt0 : resolveTop 0 regs t s = (.error .outOfFuel, s) :=
          resolveTop_of_internal_error 0 regs t s .outOfFuel s (internalResolve_zero regs t s)
        simp only [resolveMany, hrt0] at h
        injection h with h1 h2
        injection h1 with h1
        exact Or.inr h1.symm
    have hci : ∀ (regs : Chain) t d s e s1, constructInstance 0 regs t d s = (.error e, s1) →
        e = .missingRegistration ∨ e = .outOfFuel := by
      intro regs t d s e s1 h
      cases hm : resolveMany 0 regs d.requires s with
      | mk res s2 =>
        cases res with
        | ok vs => rw [constructInstance_ok 0 regs t d s vs s2 hm] at h; simp at h
        | error e2 =>
          rw [constructInstance_error 0 regs t d s e2 s2 hm] at h
          injection h with h1 h2
          injection h1 with h1
          subst h1
          exact hrm regs d.requires s e2 s2 hm
    have hcc : ∀ (regs : Chain) t d s e s1, cacheOrConstruct 0 regs t d s = (.error e, s1) →
        e = .missingRegistration ∨ e = .outOfFuel := by
      intro regs t d s e s1 h
      by_cases hh : (headCached s t).truthy = true
      · rw [cacheOrConstruct_hit 0 regs t d s hh] at h; simp at h
      · cases hm : constructInstance 0 regs t d s with
        | mk res s2 =>
          cases res with
          | ok v =>
            rw [cacheOrConstruct_miss_ok 0 regs t d s v s2 (by simpa using hh) hm] at h
            simp at h
          | error e2 =>
            rw [cacheOrConstruct_miss_error 0 regs t d s e2 s2 (by simpa using hh) hm] at h
            injection h with h1 h2
            injection h1 with h1
            subst h1
            exact hci regs t d s e2 s2 hm
    exact ⟨hir, hrt, hrm, hci, hcc⟩
  | succ fuel ih =>
    have hir : ∀ (regs : Chain) t s e s1, internalResolve (fuel + 1) regs t s = (.error e, s1) →
        e = .missingRegistration ∨ e = .outOfFuel := by
      intro regs t s e s1 h
      cases regs with
      | nil => rw [internalResolve_nilchain] at h; simp at h
      | cons r rest =>
        cases hm : mapGet r t with
        | none => rw [internalResolve_unregistered fuel r rest t s hm] at h; simp at h
        | some d =>
          cases hlt : d.lifetime with
          | «scoped» =>
            rw [internalResolve_scoped_eq fuel r rest t d s hm hlt] at h
            exact ih.2.2.2.2 (r :: rest) t d s e s1 h
          | singleton =>
            cases rest with
            | nil =>
              rw [internalResolve_singleton_root fuel r t d s hm hlt] at h
              exact ih.2.2.2.2 [r] t d s e s1 h
            | cons r2 rest2 =>
              cases hp : internalResolve fuel (r2 :: rest2) t (subSt s) with
              | mk pres ps =>
                cases pres with
                | error e2 =>
                  rw [internalResolve_singleton_probe_error fuel r r2 rest2 t d s e2 ps hm hlt hp] at h
                  injection h with h1 h2
                  injection h1 with h1
                  subst h1
                  exact ih.1 (r2 :: rest2) t (subSt s) e2 ps hp
                | ok pv =>
                  by_cases ht : pv.truthy = true
                  · rw [internalResolve_singleton_probe_truthy fuel r r2 rest2 t d s pv ps hm hlt hp ht] at h
                    simp at h
                  · rw [internalResolve_singleton_probe_falsy fuel r r2 rest2 t d s pv ps hm hlt hp
                      (by simpa using ht)] at h
                    exact ih.2.2.2.2 (r :: r2 :: rest2) t d (reSt s ps) e s1 h
          | transient =>
            cases rest with
            | nil =>
              rw [internalResolve_transient_root fuel r t d s hm hlt] at h
              exact ih.2.2.2.1 [r] t d s e s1 h
            | cons r2 rest2 =>
              cases hp : internalResolve fuel (r2 :: rest2) t (subSt s) with
              | mk pres ps =>
                cases pres with
                | error e2 =>
                  rw [internalResolve_transient_probe_error fuel r r2 rest2 t d s e2 ps hm hlt hp] at h
                  injection h with h1 h2
                  injection h1 with h1
                  subst h1
                  exact ih.1 (r2 :: rest2) t (subSt s) e2 ps hp
                | ok pv =>
                  by_cases ht : pv.truthy = true
                  · rw [internalResolve_transient_probe_truthy fuel r r2 rest2 t d s pv ps hm hlt hp ht] at h
                    simp at h
                  · rw [internalResolve_transient_probe_falsy fuel r r2 rest2 t d s pv ps hm hlt hp
                      (by simpa using ht)] at h
                    exact ih.2.2.2.1 (r :: r2 :: rest2) t d (reSt s ps) e s1 h
    have hrt : ∀ (regs : Chain) t s e s1, resolveTop (fuel + 1) regs t s = (.error e, s1) →
        e = .missingRegistration ∨ e = .outOfFuel := by
      intro regs t s e s1 h
      cases hi : internalResolve (fuel + 1) regs t s with
      | mk res si =>
        cases res with
        | ok w =>
          by_cases ht : w.truthy = true
          · rw [resolveTop_of_internal_truthy (fuel + 1) regs t s w si hi ht] at h
            simp at h
          · rw [resolveTop_of_internal_falsy (fuel + 1) regs t s w si hi (by simpa using ht)] at h
            injection h with h1 h2
            injection h1 with h1
            exact Or.inl h1.symm
        | error e2 =>
          rw [resolveTop_of_internal_error (fuel + 1) regs t s e2 si hi] at h
          injection h with h1 h2
          injection h1 with h1
          subst h1
          exact hir regs t s e2 si hi
    have hrm : ∀ (regs : Chain) ts s e s1, resolveMany (fuel + 1) regs ts s = (.error e, s1) →
        e = .missingRegistration ∨ e = .outOfFuel := by
      intro regs ts
      induction ts with
      | nil => intro s e s1 h; rw [resolveMany_nil] at h; simp at h
      | cons t rest ihl =>
        intro s e s1 h
        cases hrt1 : resolveTop (fuel + 1) regs t s with
        | mk res s2 =>
          cases res with
          | error e2 =>
            simp only [resolveMany, hrt1] at h
            injection h with h1 h2
            injection h1 with h1
            subst h1
            exact hrt regs t s e2 s2 hrt1
          | ok v =>
            cases hrm2 : resolveMany (fuel + 1) regs rest s2 with
            | mk res2 s3 =>
              cases res2 with
              | ok vs => simp only [resolveMany, hrt1, hrm2] at h; simp at h
              | error e2 =>
                simp only [resolveMany, hrt1, hrm2] at h
                injection h with h1 h2
                injection h1 with h1
                subst h1
                exact ihl s2 e2 s3 hrm2
    have hci : ∀ (regs : Chain) t d s e s1, constructInstance (fuel + 1) regs t d s = (.error e, s1) →
        e = .missingRegistration ∨ e = .outOfFuel := by
      intro regs t d s e s1 h
      cases hm : resolveMany (fuel + 1) regs d.requires s with
      | mk res s2 =>
        cases res with
        | ok vs => rw [constructInstance_ok (fuel + 1) regs t d s vs s2 hm] at h; simp at h
        | error e2 =>
          rw [constructInstance_error (fuel + 1) regs t d s e2 s2 hm] at h
          injection h with h1 h2
          injection h1 with h1
          subst h1
          exact hrm regs d.requires s e2 s2 hm
    have hcc : ∀ (regs : Chain) t d s e s1, cacheOrConstruct (fuel + 1) regs t d s = (.error e, s1) →
        e = .missingRegistration ∨ e = .outOfFuel := by
      intro regs t d s e s1 h
      by_cases hh : (headCached s t).truthy = true
      · rw [cacheOrConstruct_hit (fuel + 1) regs t d s hh] at h; simp at h
      · cases hm : constructInstance (fuel + 1) regs t d s with
        | mk res s2 =>
          cases res with
          | ok v =>
            rw [cacheOrConstruct_miss_ok (fuel + 1) regs t d s v s2 (by simpa using hh) hm] at h
            simp at h
          | error e2 =>
            rw [cacheOrConstruct_miss_error (fuel + 1) regs t d s e2 s2 (by simpa using hh) hm] at h
            injection h with h1 h2
            injection h1 with h1
            subst h1
            exact hci regs t d s e2 s2 hm
    exact ⟨hir, hrt, hrm, hci, hcc⟩

theorem resolve_trace_mono (fuel : Nat) :
    (∀ regs t s, ∃ tr, ((internalResolve fuel regs t s).2).trace = s.trace ++ tr) ∧
    (∀ regs t s, ∃ tr, ((resolveTop fuel regs t s).2).trace = s.trace ++ tr) ∧
    (∀ regs ts s, ∃ tr, ((resolveMany fuel regs ts s).2).trace = s.trace ++ tr) ∧
    (∀ regs t d s, ∃ tr, ((constructInstance fuel regs t d s).2).trace = s.trace ++ tr) ∧
    (∀ regs t d s, ∃ tr, ((cacheOrConstruct fuel regs t d s).2).trace = s.trace ++ tr) := by
  induction fuel with
  | zero =>
    have hir : ∀ (regs : Chain) t s, ∃ tr, ((internalResolve 0 regs t s).2).trace = s.trace ++ tr :=
      fun regs t s => ⟨[], by rw [internalResolve_zero]; simp⟩
    have hrt : ∀ (regs : Chain) t s, ∃ tr, ((resolveTop 0 regs t s).2).trace = s.trace ++ tr :=
      fun regs t s =>
        ⟨[], by rw [resolveTop_of_internal_error 0 regs t s .outOfFuel s (internalResolve_zero regs t s)]; simp⟩
    have hrm : ∀ (regs : Chain) ts s, ∃ tr, ((resolveMany 0 regs ts s).2).trace = s.trace ++ tr := by
      intro regs ts s
      cases ts with
      | nil => exact ⟨[], by rw [resolveMany_nil]; simp⟩
      | cons t rest =>
        refine ⟨[], ?_⟩
        have hrt0 : resolveTop 0 regs t s = (.error .outOfFuel, s) :=
          resolveTop_of_internal_error 0 regs t s .outOfFuel s (internalResolve_zero regs t s)
        simp only [resolveMany, hrt0]
        simp
    have hci : ∀ (regs : Chain) t d s, ∃ tr, ((constructInstance 0 regs t d s).2).trace = s.trace ++ tr := by
      intro regs t d s
      cases hm : resolveMany 0 regs d.requires s with
      | mk res s2 =>
        obtain ⟨tr, htr⟩ := hrm regs d.requires s
        rw [hm] at htr
        cases res with
        | ok vs =>
          refine ⟨tr ++ [(t, vs)], ?_⟩
          rw [constructInstance_ok 0 regs t d s vs s2 hm]
          simp only [] at htr ⊢
          rw [htr, List.append_assoc]
        | error e2 =>
          refine ⟨tr, ?_⟩
          rw [constructInstance_error 0 regs t d s e2 s2 hm]
          exact htr
    have hcc : ∀ (regs : Chain) t d s, ∃ tr, ((cacheOrConstruct 0 regs t d s).2).trace = s.trace ++ tr := by
      intro regs t d s
      by_cases hh : (headCached s t).truthy = true
      · exact ⟨[], by rw [cacheOrConstruct_hit 0 regs t d s hh]; simp⟩
      · cases hm : constructInstance 0 regs t d s with
        | mk res s2 =>
          obtain ⟨tr, htr⟩ := hci regs t d s
          rw [hm] at htr
          cases res with
          | ok v =>
            refine ⟨tr, ?_⟩
            rw [cacheOrConstruct_miss_ok 0 regs t d s v s2 (by simpa using hh) hm]
            exact htr
          | error e2 =>
            refine ⟨tr, ?_⟩
            rw [cacheOrConstruct_miss_error 0 regs t d s e2 s2 (by simpa using hh) hm]
            exact htr
    exact ⟨hir, hrt, hrm, hci, hcc⟩
  | succ fuel ih =>
    have hir : ∀ (regs : Chain) t s, ∃ tr, ((internalResolve (fuel + 1) regs t s).2).trace = s.trace ++ tr := by
      intro regs t s
      cases regs with
      | nil => exact ⟨[], by rw [internalResolve_nilchain]; simp⟩
      | cons r rest =>
        cases hm : mapGet r t with
        | none => exact ⟨[], by rw [internalResolve_unregistered fuel r rest t s hm]; simp⟩
        | some d =>
          cases hlt : d.lifetime with
          | «scoped» =>
            obtain ⟨tr, htr⟩ := ih.2.2.2.2 (r :: rest) t d s
            exact ⟨tr, by rw [internalResolve_scoped_eq fuel r rest t d s hm hlt]; exact htr⟩
          | singleton =>
            cases rest with
            | nil =>
              obtain ⟨tr, htr⟩ := ih.2.2.2.2 [r] t d s
              exact ⟨tr, by rw [internalResolve_singleton_root fuel r t d s hm hlt]; exact htr⟩
            | cons r2 rest2 =>
              cases hp : internalResolve fuel (r2 :: rest2) t (subSt s) with
              | mk pres ps =>
                obtain ⟨tr, htr⟩ := ih.1 (r2 :: rest2) t (subSt s)
                rw [hp] at htr
                simp only [subSt] at htr
                cases pres with
                | error e2 =>
                  refine ⟨tr, ?_⟩
                  rw [internalResolve_singleton_probe_error fuel r r2 rest2 t d s e2 ps hm hlt hp]
                  exact htr
                | ok pv =>
                  by_cases ht : pv.truthy = true
                  · refine ⟨tr, ?_⟩
                    rw [internalResolve_singleton_probe_truthy fuel r r2 rest2 t d s pv ps hm hlt hp ht]
                    exact htr
                  · obtain ⟨tr2, htr2⟩ := ih.2.2.2.2 (r :: r2 :: rest2) t d (reSt s ps)
                    refine ⟨tr ++ tr2, ?_⟩
                    rw [internalResolve_singleton_probe_falsy fuel r r2 rest2 t d s pv ps hm hlt hp
                      (by simpa using ht)]
                    rw [htr2]
                    simp only [reSt]
                    rw [htr, List.append_assoc]
          | transient =>
            cases rest with
            | nil =>
              obtain ⟨tr, htr⟩ := ih.2.2.2.1 [r] t d s
              exact ⟨tr, by rw [internalResolve_transient_root fuel r t d s hm hlt]; exact htr⟩
            | cons r2 rest2 =>
              cases hp : internalResolve fuel (r2 :: rest2) t (subSt s) with
              | mk pres ps =>
                obtain ⟨tr, htr⟩ := ih.1 (r2 :: rest2) t (subSt s)
                rw [hp] at htr
                simp only [subSt] at htr
                cases pres with
                | error e2 =>
                  refine ⟨tr, ?_⟩
                  rw [internalResolve_transient_probe_error fuel r r2 rest2 t d s e2 ps hm hlt hp]
                  exact htr
                | ok pv =>
                  by_cases ht : pv.truthy = true
                  · refine ⟨tr, ?_⟩
                    rw [internalResolve_transient_probe_truthy fuel r r2 rest2 t d s pv ps hm hlt hp ht]
                    exact htr
                  · obtain ⟨tr2, htr2⟩ := ih.2.2.2.1 (r :: r2 :: rest2) t d (reSt s ps)
                    refine ⟨tr ++ tr2, ?_⟩
                    rw [internalResolve_transient_probe_falsy fuel r r2 rest2 t d s pv ps hm hlt hp
                      (by simpa using ht)]
                    rw [htr2]
                    simp only [reSt]
                    rw [htr, List.append_assoc]
    have hrt : ∀ (regs : Chain) t s, ∃ tr, ((resolveTop (fuel + 1) regs t s).2).trace = s.trace ++ tr := by
      intro regs t s
      cases hi : internalResolve (fuel + 1) regs t s with
      | mk res si =>
        obtain ⟨tr, htr⟩ := hir regs t s
        rw [hi] at htr
        cases res with
        | ok w =>
          by_cases ht : w.truthy = true
          · exact ⟨tr, by rw [resolveTop_of_internal_truthy (fuel + 1) regs t s w si hi ht]; exact htr⟩
          · exact ⟨tr, by rw [resolveTop_of_internal_falsy (fuel + 1) regs t s w si hi (by simpa using ht)]; exact htr⟩
        | error e2 =>
          exact ⟨tr, by rw [resolveTop_of_internal_error (fuel + 1) regs t s e2 si hi]; exact htr⟩
    have hrm : ∀ (regs : Chain) ts s, ∃ tr, ((resolveMany (fuel + 1) regs ts s).2).trace = s.trace ++ tr := by
      intro regs ts
      induction ts with
      | nil => intro s; exact ⟨[], by rw [resolveMany_nil]; simp⟩
      | cons t rest ihl =>
        intro s
        cases hrt1 : resolveTop (fuel + 1) regs t s with
        | mk res s2 =>
          obtain ⟨tr, htr⟩ := hrt regs t s
          rw [hrt1] at htr
          cases res with
          | error e2 =>
            exact ⟨tr, by simp only [resolveMany, hrt1]; exact htr⟩
          | ok v =>
            obtain ⟨tr2, htr2⟩ := ihl s2
            cases hrm2 : resolveMany (fuel + 1) regs rest s2 with
            | mk res2 s3 =>
              rw [hrm2] at htr2
              cases res2 with
              | ok vs =>
                refine ⟨tr ++ tr2, ?_⟩
                simp only [resolveMany, hrt1, hrm2]
                simp only [] at htr2 htr ⊢
                rw [htr2, htr, List.append_assoc]
              | error e2 =>
                refine ⟨tr ++ tr2, ?_⟩
                simp only [resolveMany, hrt1, hrm2]
                simp only [] at htr2 htr ⊢
                rw [htr2, htr, List.append_assoc]
    have hci : ∀ (regs : Chain) t d s, ∃ tr, ((constructInstance (fuel + 1) regs t d s).2).trace = s.trace ++ tr := by
      intro regs t d s
      cases hm : resolveMany (fuel + 1) regs d.requires s with
      | mk res s2 =>
        obtain ⟨tr, htr⟩ := hrm regs d.requires s
        rw [hm] at htr
        cases res with
        | ok vs =>
          refine ⟨tr ++ [(t, vs)], ?_⟩
          rw [constructInstance_ok (fuel + 1) regs t d s vs s2 hm]
          simp only [] at htr ⊢
          rw [htr, List.append_assoc]
        | error e2 =>
          exact ⟨tr, by rw [constructInstance_error (fuel + 1) regs t d s e2 s2 hm]; exact htr⟩
    have hcc : ∀ (regs : Chain) t d s, ∃ tr, ((cacheOrConstruct (fuel + 1) regs t d s).2).trace = s.trace ++ tr := by
      intro regs t d s
      by_cases hh : (headCached s t).truthy = true
      · exact ⟨[], by rw [cacheOrConstruct_hit (fuel + 1) regs t d s hh]; simp⟩
      · cases hm : constructInstance (fuel + 1) regs t d s with
        | mk res s2 =>
          obtain ⟨tr, htr⟩ := hci regs t d s
          rw [hm] at htr
          cases res with
          | ok v =>
            refine ⟨tr, ?_⟩
            rw [cacheOrConstruct_miss_ok (fuel + 1) regs t d s v s2 (by simpa using hh) hm]
            exact htr
          | error e2 =>
            refine ⟨tr, ?_⟩
            rw [cacheOrConstruct_miss_error (fuel + 1) regs t d s e2 s2 (by simpa using hh) hm]
            exact htr
    exact ⟨hir, hrt, hrm, hci, hcc⟩

/-! ### Cache confinement: a resolution writes the head cache only at tokens
reachable from the resolved token -/

theorem reachS_ne (r : RegMap) (t w : Token) (h : ¬ ReachS r t w) : w ≠ t :=
  fun he => h (by rw [he]; exact Relation.ReflTransGen.refl)

theorem reachS_requires (r : RegMap) (t w : Token) (d : ServiceDefinition)
    (hm : mapGet r t = some d) (h : ¬ ReachS r t w) :
    ∀ u ∈ d.requires, ¬ ReachS r u w := by
  intro u hu hrw
  apply h
  refine Relation.ReflTransGen.head ?_ hrw
  unfold EdgeG neighbors
  rw [mapGet_graphFromServiceMap, hm]
  simpa using hu

theorem reSt_head (s s1 : St) : (reSt s s1).caches.headD [] = s.caches.headD [] := by
  simp [reSt]

theorem setHeadCache_head (s : St) (t : Token) (v : JSVal) :
    (setHeadCache s t v).caches.headD [] = mapSet (s.caches.headD []) t v := by
  simp [setHeadCache]

theorem resolve_head_confine (fuel : Nat) :
    (∀ r rest t s w, ¬ ReachS r t w →
       mapGet (((internalResolve fuel (r :: rest) t s).2).caches.headD []) w
         = mapGet (s.caches.headD []) w) ∧
    (∀ r rest t s w, ¬ ReachS r t w →
       mapGet (((resolveTop fuel (r :: rest) t s).2).caches.headD []) w
         = mapGet (s.caches.headD []) w) ∧
    (∀ r rest ts s w, (∀ u ∈ ts, ¬ ReachS r u w) →
       mapGet (((resolveMany fuel (r :: rest) ts s).2).caches.headD []) w
         = mapGet (s.caches.headD []) w) ∧
    (∀ r rest t d s w, (∀ u ∈ d.requires, ¬ ReachS r u w) →
       mapGet (((constructInstance fuel (r :: rest) t d s).2).caches.headD []) w
         = mapGet (s.caches.headD []) w) ∧
    (∀ r rest t d s w, mapGet r t = some d → ¬ ReachS r t w →
       mapGet (((cacheOrConstruct fuel (r :: rest) t d s).2).caches.headD []) w
         = mapGet (s.caches.headD []) w) := by
  induction fuel with
  | zero =>
    have hir : ∀ (r : RegMap) (rest : Chain) t s w, ¬ ReachS r t w →
        mapGet (((internalResolve 0 (r :: rest) t s).2).caches.headD []) w
          = mapGet (s.caches.headD []) w := by
      intro r rest t s w _
      rw [internalResolve_zero]
    have hrt : ∀ (r : RegMap) (rest : Chain) t s w, ¬ ReachS r t w →
        mapGet (((resolveTop 0 (r :: rest) t s).2).caches.headD []) w
          = mapGet (s.caches.headD []) w := by
      intro r rest t s w _
      rw [resolveTop_of_internal_error 0 (r :: rest) t s .outOfFuel s
        (internalResolve_zero (r :: rest) t s)]
    have hrm : ∀ (r : RegMap) (rest : Chain) ts s w, (∀ u ∈ ts, ¬ ReachS r u w) →
        mapGet (((resolveMany 0 (r :: rest) ts s).2).caches.headD []) w
          = mapGet (s.caches.headD []) w := by
      intro r rest ts s w _
      cases ts with
      | nil => rw [resolveMany_nil]
      | cons t rest2 =>
        have hrt0 : resolveTop 0 (r :: rest) t s = (.error .outOfFuel, s) :=
          resolveTop_of_internal_error 0 (r :: rest) t s .outOfFuel s
            (internalResolve_zero (r :: rest) t s)
        simp only [resolveMany, hrt0]
    have hci : ∀ (r : RegMap) (rest : Chain) t d s w, (∀ u ∈ d.requires, ¬ ReachS r u w) →
        mapGet (((constructInstance 0 (r :: rest) t d s).2).caches.headD []) w
          = mapGet (s.caches.headD []) w := by
      intro r rest t d s w hu
      cases hm : resolveMany 0 (r :: rest) d.requires s with
      | mk res s2 =>
        have hpre := hrm r rest d.requires s w hu
        rw [hm] at hpre
        cases res with
        | ok vs =>
          rw [constructInstance_ok 0 (r :: rest) t d s vs s2 hm]
          exact hpre
        | error e2 =>
          rw [constructInstance_error 0 (r :: rest) t d s e2 s2 hm]
          exact hpre
    have hcc : ∀ (r : RegMap) (rest : Chain) t d s w, mapGet r t = some d → ¬ ReachS r t w →
        mapGet (((cacheOrConstruct 0 (r :: rest) t d s).2).caches.headD []) w
          = mapGet (s.caches.headD []) w := by
      intro r rest t d s w hm hnr
      by_cases hh : (headCached s t).truthy = true
      · rw [cacheOrConstruct_hit 0 (r :: rest) t d s hh]
      · cases hcon : constructInstance 0 (r :: rest) t d s with
        | mk res s2 =>
          have hpre := hci r rest t d s w (reachS_requires r t w d hm hnr)
          rw [hcon] at hpre
          cases res with
          | ok v =>
            rw [cacheOrConstruct_miss_ok 0 (r :: rest) t d s v s2 (by simpa using hh) hcon]
            simp only [setHeadCache_head]
            rw [mapGet_mapSet_ne _ t w v (reachS_ne r t w hnr)]
            exact hpre
          | error e2 =>
            rw [cacheOrConstruct_miss_error 0 (r :: rest) t d s e2 s2 (by simpa using hh) hcon]
            exact hpre
    exact ⟨hir, hrt, hrm, hci, hcc⟩
  | succ fuel ih =>
    have hir : ∀ (r : RegMap) (rest : Chain) t s w, ¬ ReachS r t w →
        mapGet (((internalResolve (fuel + 1) (r :: rest) t s).2).caches.headD []) w
          = mapGet (s.caches.headD []) w := by
      intro r rest t s w hnr
      cases hm : mapGet r t with
      | none => rw [internalResolve_unregistered fuel r rest t s hm]
      | some d =>
        cases hlt : d.lifetime with
        | «scoped» =>
          rw [internalResolve_scoped_eq fuel r rest t d s hm hlt]
          exact ih.2.2.2.2 r rest t d s w hm hnr
        | singleton =>
          cases rest with
          | nil =>
            rw [internalResolve_singleton_root fuel r t d s hm hlt]
            exact ih.2.2.2.2 r [] t d s w hm hnr
          | cons r2 rest2 =>
            cases hp : internalResolve fuel (r2 :: rest2) t (subSt s) with
            | mk pres ps =>
              cases pres with
              | error e2 =>
                rw [internalResolve_singleton_probe_error fuel r r2 rest2 t d s e2 ps hm hlt hp]
                simp only [reSt_head]
              | ok pv =>
                by_cases ht : pv.truthy = true
                · rw [internalResolve_singleton_probe_truthy fuel r r2 rest2 t d s pv ps hm hlt hp ht]
                  simp only [reSt_head]
                · rw [internalResolve_singleton_probe_falsy fuel r r2 rest2 t d s pv ps hm hlt hp
                    (by simpa using ht)]
                  have h2 := ih.2.2.2.2 r (r2 :: rest2) t d (reSt s ps) w hm hnr
                  rw [h2, reSt_head]
        | transient =>
          cases rest with
          | nil =>
            rw [internalResolve_transient_root fuel r t d s hm hlt]
            exact ih.2.2.2.1 r [] t d s w (reachS_requires r t w d hm hnr)
          | cons r2 rest2 =>
            cases hp : internalResolve fuel (r2 :: rest2) t (subSt s) with
            | mk pres ps =>
              cases pres with
              | error e2 =>
                rw [internalResolve_transient_probe_error fuel r r2 rest2 t d s e2 ps hm hlt hp]
                simp only [reSt_head]
              | ok pv =>
                by_cases ht : pv.truthy = true
                · rw [internalResolve_transient_probe_truthy fuel r r2 rest2 t d s pv ps hm hlt hp ht]
                  simp only [reSt_head]
                · rw [internalResolve_transient_probe_falsy fuel r r2 rest2 t d s pv ps hm hlt hp
                    (by simpa using ht)]
                  have h2 := ih.2.2.2.1 r (r2 :: rest2) t d (reSt s ps) w
                    (reachS_requires r t w d hm hnr)
                  rw [h2, reSt_head]
    have hrt : ∀ (r : RegMap) (rest : Chain) t s w, ¬ ReachS r t w →
        mapGet (((resolveTop (fuel + 1) (r :: rest) t s).2).caches.headD []) w
          = mapGet (s.caches.headD []) w := by
      intro r rest t s w hnr
      cases hi : internalResolve (fuel + 1) (r :: rest) t s with
      | mk res si =>
        have hpre := hir r rest t s w hnr
        rw [hi] at hpre
        cases res with
        | ok v =>
          by_cases ht : v.truthy = true
          · rw [resolveTop_of_internal_truthy (fuel + 1) (r :: rest) t s v si hi ht]
            exact hpre
          · rw [resolveTop_of_internal_falsy (fuel + 1) (r :: rest) t s v si hi (by simpa using ht)]
            exact hpre
        | error e2 =>
          rw [resolveTop_of_internal_error (fuel + 1) (r :: rest) t s e2 si hi]
          exact hpre
    have hrm : ∀ (r : RegMap) (rest : Chain) ts s w, (∀ u ∈ ts, ¬ ReachS r u w) →
        mapGet (((resolveMany (fuel + 1) (r :: rest) ts s).2).caches.headD []) w
          = mapGet (s.caches.headD []) w := by
      intro r rest ts
      induction ts with
      | nil => intro s w _; rw [resolveMany_nil]
      | cons t rest2 ihl =>
        intro s w hu
        cases hrt1 : resolveTop (fuel + 1) (r :: rest) t s with
        | mk res s2 =>
          have hpre := hrt r rest t s w (hu t (by simp))
          rw [hrt1] at hpre
          cases res with
          | error e2 =>
            simp only [resolveMany, hrt1]
            exact hpre
          | ok v =>
            have hpost := ihl s2 w (fun u humem => hu u (by simp [humem]))
            cases hrm2 : resolveMany (fuel + 1) (r :: rest) rest2 s2 with
            | mk res2 s3 =>
              rw [hrm2] at hpost
              cases res2 with
              | ok vs =>
                simp only [resolveMany, hrt1, hrm2]
                simp only [] at hpost hpre ⊢
                rw [hpost, hpre]
              | error e2 =>
                simp only [resolveMany, hrt1, hrm2]
                simp only [] at hpost hpre ⊢
                rw [hpost, hpre]
    have hci : ∀ (r : RegMap) (rest : Chain) t d s w, (∀ u ∈ d.requires, ¬ ReachS r u w) →
        mapGet (((constructInstance (fuel + 1) (r :: rest) t d s).2).caches.headD []) w
          = mapGet (s.caches.headD []) w := by
      intro r rest t d s w hu
      cases hm : resolveMany (fuel + 1) (r :: rest) d.requires s with
      | mk res s2 =>
        have hpre := hrm r rest d.requires s w hu
        rw [hm] at hpre
        cases res with
        | ok vs =>
          rw [constructInstance_ok (fuel + 1) (r :: rest) t d s vs s2 hm]
          exact hpre
        | error e2 =>
          rw [constructInstance_error (fuel + 1) (r :: rest) t d s e2 s2 hm]
          exact hpre
    have hcc : ∀ (r : RegMap) (rest : Chain) t d s w, mapGet r t = some d → ¬ ReachS r t w →
        mapGet (((cacheOrConstruct (fuel + 1) (r :: rest) t d s).2).caches.headD []) w
          = mapGet (s.caches.headD []) w := by
      intro r rest t d s w hm hnr
      by_cases hh : (headCached s t).truthy = true
      · rw [cacheOrConstruct_hit (fuel + 1) (r :: rest) t d s hh]
      · cases hcon : constructInstance (fuel + 1) (r :: rest) t d s with
        | mk res s2 =>
          have hpre := hci r rest t d s w (reachS_requires r t w d hm hnr)
          rw [hcon] at hpre
          cases res with
          | ok v =>
            rw [cacheOrConstruct_miss_ok (fuel + 1) (r :: rest) t d s v s2 (by simpa using hh) hcon]
            simp only [setHeadCache_head]
            rw [mapGet_mapSet_ne _ t w v (reachS_ne r t w hnr)]
            exact hpre
          | error e2 =>
            rw [cacheOrConstruct_miss_error (fuel + 1) (r :: rest) t d s e2 s2 (by simpa using hh) hcon]
            exact hpre
    exact ⟨hir, hrt, hrm, hci, hcc⟩

/-! ### Claim C1 -/

/-- Claim C1 counterexample: `provide` called again with an already registered
token does not fail; it returns a registry in which the token is silently
mapped to the new definition (`requires = [7]`), the old one (`requires = []`)
being replaced, and the token is layered once more onto `provided`. -/
theorem c1_counterexample :
    ((mapGet (provide (createContainerProvide 0 (constDef (.vbool true))) 0 (depDef [7])).map 0).map
        ServiceDefinition.requires = some [7]) ∧
    ((mapGet (createContainerProvide 0 (constDef (.vbool true))).map 0).map
        ServiceDefinition.requires = some []) ∧
    (provide (createContainerProvide 0 (constDef (.vbool true))) 0 (depDef [7])).provided = [0, 0] := by
  refine ⟨?_, ?_, ?_⟩ <;>
    simp [provide, createContainerProvide, mapSet, mapHas, mapGet, constDef, depDef, List.find?]

/-- Claim C1 (amended): `provide` performs no runtime duplicate-registration
check.  Re-providing a token succeeds and returns a new registry mapping the
token to the new definition, leaving every other token's registration
unchanged, and appending the token to the `provided` list once more. -/
theorem c1_no_duplicate_check (c : Container) (t u : Token) (d : ServiceDefinition) :
    mapGet (provide c t d).map t = some d ∧
    (u ≠ t → mapGet (provide c t d).map u = mapGet c.map u) ∧
    (provide c t d).provided = c.provided ++ [t] := by
  refine ⟨?_, ?_, rfl⟩
  · exact mapGet_mapSet_self c.map t d
  · intro hne
    exact mapGet_mapSet_ne c.map t u d hne

/-- Witness for C1 (amended) at a concrete duplicate registration. -/
theorem c1_no_duplicate_check_witness :
    mapGet (provide (createContainerProvide 0 (constDef (.vbool true))) 0 (depDef [7])).map 0
      = some (depDef [7]) ∧
    mapGet (provide (createContainerProvide 0 (constDef (.vbool true))) 0 (depDef [7])).map 1
      = mapGet (createContainerProvide 0 (constDef (.vbool true))).map 1 :=
  ⟨(c1_no_duplicate_check (createContainerProvide 0 (constDef (.vbool true))) 0 1 (depDef [7])).1,
   (c1_no_duplicate_check (createContainerProvide 0 (constDef (.vbool true))) 0 1 (depDef [7])).2.1
     (by decide)⟩

/-! ### Claim C10 -/

/-- Claim C10 counterexample: for an already-registered token, `provide` does
not preserve the old registration (the new mapping lacks `4 ↦ requires []`),
and a resolver built from the original registry does see the token. -/
theorem c10_counterexample :
    ((mapGet (provide strC 4 (depDef [9])).map 4).map ServiceDefinition.requires = some [9]) ∧
    ((mapGet strC.map 4).map ServiceDefinition.requires = some []) ∧
    (resolveTop 10 [strC.map] 4 (initSt 1)).1 = .ok (.vstr "x") := by
  refine ⟨?_, ?_, ?_⟩ <;>
    simp [provide, strC, createContainerProvide, mapSet, mapHas, mapGet, constDef, depDef,
      resolveTop, internalResolve, cacheOrConstruct, constructInstance, resolveMany,
      headCached, setHeadCache, subSt, reSt, JSVal.truthy, initSt, List.find?]

/-- Claim C10 (amended): for a token not already registered, `provide` returns
a new registry holding every registration of the old one plus the new pair at
the end; lookups at other tokens are unchanged, and a resolver built from the
old registry does not see the new token (resolving it raises the
missing-registration error and leaves the state untouched). -/
theorem c10_provide_persistent (c : Container) (t : Token) (d : ServiceDefinition)
    (h : mapHas c.map t = false) :
    (provide c t d).map = c.map ++ [(t, d)] ∧
    mapGet (provide c t d).map t = some d ∧
    (∀ u, u ≠ t → mapGet (provide c t d).map u = mapGet c.map u) ∧
    (∀ fuel s, resolveTop (fuel + 1) [c.map] t s = (.error .missingRegistration, s)) := by
  have hget : mapGet c.map t = none := by
    unfold mapHas at h
    cases hg : mapGet c.map t with
    | none => rfl
    | some w => rw [hg] at h; simp at h
  refine ⟨mapSet_fresh c.map t d h, mapGet_mapSet_self c.map t d,
    fun u hne => mapGet_mapSet_ne c.map t u d hne, ?_⟩
  intro fuel s
  have hint := internalResolve_unregistered fuel c.map [] t s hget
  exact resolveTop_of_internal_falsy (fuel + 1) [c.map] t s .vundef s hint rfl

/-- Witness for C10 (amended) at a concrete fresh registration. -/
theorem c10_provide_persistent_witness :
    (provide strC 7 allocDef).map = strC.map ++ [(7, allocDef)] ∧
    mapGet (provide strC 7 allocDef).map 7 = some allocDef ∧
    mapGet (provide strC 7 allocDef).map 4 = mapGet strC.map 4 ∧
    resolveTop 10 [strC.map] 7 (initSt 1) = (.error .missingRegistration, initSt 1) := by
  have h : mapHas strC.map 7 = false := by
    simp [strC, createContainerProvide, mapSet, mapHas, mapGet, constDef, List.find?]
  obtain ⟨h1, h2, h3, h4⟩ := c10_provide_persistent strC 7 allocDef h
  exact ⟨h1, h2, h3 4 (by decide), h4 9 (initSt 1)⟩

/-! ### Claim C5 -/

theorem checkInheriting_true_iff (pm child : RegMap) :
    checkInheriting pm child = true ↔ ∀ k ∈ mapKeys pm, mapHas child k = true := by
  simp [checkInheriting, List.all_eq_true]

/-- Claim C5: finalizing a registry with a parent resolver raises the
inheritance-mismatch error exactly when some token of the parent's own
registrations is absent from the child registry; this check precedes cycle
detection, and on success the child chain extends the parent chain and the
child's registrations form a superset of the parent's. -/
theorem c5_inheritance_check (c : Container) (pm : RegMap) (prest : Chain) :
    (resolverF c (some (pm :: prest)) = .error .inheritanceMismatch ↔
       ∃ k ∈ mapKeys pm, mapHas c.map k = false) ∧
    (∀ res, resolverF c (some (pm :: prest)) = .ok res →
       (∀ k ∈ mapKeys pm, mapHas c.map k = true) ∧ res = c.map :: pm :: prest) := by
  unfold resolverF
  simp only [List.headD_cons]
  by_cases hchk : checkInheriting pm c.map = true
  · rw [if_pos hchk]
    constructor
    · constructor
      · intro h
        by_cases hc : isCyclic (graphFromServiceMap c.map) = true
        · rw [if_pos hc] at h; simp at h
        · rw [if_neg hc] at h; simp at h
      · rintro ⟨k, hk, hfalse⟩
        rw [(checkInheriting_true_iff pm c.map).mp hchk k hk] at hfalse
        simp at hfalse
    · intro res h
      by_cases hc : isCyclic (graphFromServiceMap c.map) = true
      · rw [if_pos hc] at h; simp at h
      · rw [if_neg hc] at h
        injection h with h
        exact ⟨(checkInheriting_true_iff pm c.map).mp hchk, h.symm⟩
  · rw [if_neg hchk]
    constructor
    · constructor
      · intro _
        rw [checkInheriting_true_iff] at hchk
        push_neg at hchk
        obtain ⟨k, hk, hne⟩ := hchk
        exact ⟨k, hk, by simpa using hne⟩
      · intro _; rfl
    · intro res h; simp at h

/-- Witness for C5: a concrete mismatch (parent registers token 3, child
registry `strC` does not) and a concrete success (child `chiC` registers 3). -/
theorem c5_inheritance_check_witness :
    resolverF strC (some [parC.map]) = .error .inheritanceMismatch ∧
    ((∀ k ∈ mapKeys parC.map, mapHas chiC.map k = true) ∧
      chainEx = chiC.map :: parC.map :: []) := by
  constructor
  · refine (c5_inheritance_check strC parC.map []).1.mpr ⟨3, ?_, ?_⟩
    · simp [parC, createContainerProvide, mapSet, mapHas, mapGet, mapKeys, List.find?]
    · simp [strC, createContainerProvide, mapSet, mapHas, mapGet, constDef, List.find?]
  · refine (c5_inheritance_check chiC parC.map []).2 chainEx ?_
    simp [resolverF, chainEx, chiC, parC, createContainerProvide, mapSet, mapHas, mapGet,
      allocDef, checkInheriting, mapKeys, isCyclic, isCyclicLoop, hasCycle, hasCycleList,
      uNodes, graphFromServiceMap, neighbors, setMem, setAdd, setDel, List.find?]

/-! ### Claim C3 -/

/-- Claim C3 counterexample: token 5 has a definition in the resolver's own
(and only) registry, yet `resolve` raises the missing-registration error,
because the constructed instance `0` is falsy; so the error is not equivalent
to the absence of a definition in the chain. -/
theorem c3_counterexample :
    mapHas zeroC.map 5 = true ∧
    resolveTop 10 [zeroC.map] 5 (initSt 1) =
      (.error .missingRegistration, ⟨[[(5, .vnum 0)]], 0, [(5, [])]⟩) := by
  constructor <;>
    simp [zeroC, createContainerProvide, mapSet, mapHas, mapGet, constDef,
      resolveTop, internalResolve, cacheOrConstruct, constructInstance, resolveMany,
      headCached, setHeadCache, subSt, reSt, JSVal.truthy, initSt, List.find?]

/-- Claim C3 (amended): when no definition exists in the resolver's own
registry the internal variant returns `undefined` (the absence marker) without
raising, and the caller-facing `resolve` raises the missing-registration
error; in general `resolve` raises the missing-registration error exactly when
the internal resolution yields a falsy value or itself propagates that
error from a dependency. -/
theorem c3_missing_registration (fuel : Nat) :
    (∀ r (rest : Chain) t s, mapGet r t = none →
       internalResolve (fuel + 1) (r :: rest) t s = (.ok .vundef, s) ∧
       resolveTop (fuel + 1) (r :: rest) t s = (.error .missingRegistration, s)) ∧
    (∀ regs t s s2, resolveTop fuel regs t s = (.error .missingRegistration, s2) ↔
       ((∃ v, internalResolve fuel regs t s = (.ok v, s2) ∧ v.truthy = false) ∨
        internalResolve fuel regs t s = (.error .missingRegistration, s2))) := by
  constructor
  · intro r rest t s hget
    have hint := internalResolve_unregistered fuel r rest t s hget
    exact ⟨hint, resolveTop_of_internal_falsy (fuel + 1) (r :: rest) t s .vundef s hint rfl⟩
  · intro regs t s s2
    cases hi : internalResolve fuel regs t s with
    | mk res si =>
      cases res with
      | ok v =>
        by_cases ht : v.truthy = true
        · rw [resolveTop_of_internal_truthy fuel regs t s v si hi ht]
          constructor
          · intro h; simp at h
          · rintro (⟨v2, hv2, hf⟩ | habs)
            · injection hv2 with h1 h2
              injection h1 with h1
              rw [← h1] at hf
              rw [ht] at hf
              simp at hf
            · simp at habs
        · rw [resolveTop_of_internal_falsy fuel regs t s v si hi (by simpa using ht)]
          constructor
          · intro h
            injection h with h1 h2
            subst h2
            exact Or.inl ⟨v, rfl, by simpa using ht⟩
          · rintro (⟨v2, hv2, hf⟩ | habs)
            · injection hv2 with h1 h2
              rw [h2]
            · simp at habs
      | error e =>
        rw [resolveTop_of_internal_error fuel regs t s e si hi]
        constructor
        · intro h
          injection h with h1 h2
          subst h2
          injection h1 with h1
          subst h1
          exact Or.inr rfl
        · rintro (⟨v2, hv2, hf⟩ | habs)
          · simp at hv2
          · injection habs with h1 h2
            rw [h1, h2]

/-- Witness for C3 (amended) at a concrete unregistered token. -/
theorem c3_missing_registration_witness :
    internalResolve 10 [strC.map] 9 (initSt 1) = (.ok .vundef, initSt 1) ∧
    resolveTop 10 [strC.map] 9 (initSt 1) = (.error .missingRegistration, initSt 1) :=
  (c3_missing_registration 9).1 strC.map [] 9 (initSt 1)
    (by simp [strC, createContainerProvide, mapSet, mapHas, mapGet, constDef, List.find?])

/-! ### Claim C2 -/

/-- Claim C2: `resolver()` raises the cyclic-dependency error exactly when the
graph with a node per registered token and an edge to each entry of its
definition's `requires` has a cycle (both with no parent and with a parent
passing the inheritance check, which by C5 precedes cycle detection); a token
with no registration of its own has no outgoing edges and lies on no cycle;
and `resolve` never raises the cyclic-dependency error. -/
theorem c2_cycle_detection (c : Container) :
    (resolverF c none = .error .cyclicDependency ↔
       HasCycleProp (graphFromServiceMap c.map)) ∧
    (∀ p : Chain, checkInheriting (p.headD []) c.map = true →
       (resolverF c (some p) = .error .cyclicDependency ↔
          HasCycleProp (graphFromServiceMap c.map))) ∧
    (∀ t, mapGet (graphFromServiceMap c.map) t = none →
       neighbors (graphFromServiceMap c.map) t = [] ∧
       ¬ Relation.TransGen (EdgeG (graphFromServiceMap c.map)) t t) ∧
    (∀ fuel (regs : Chain) t s e s1, resolveTop fuel regs t s = (.error e, s1) →
       e ≠ .cyclicDependency) := by
  refine ⟨?_, ?_, ?_, ?_⟩
  · unfold resolverF
    by_cases hc : isCyclic (graphFromServiceMap c.map) = true
    · rw [if_pos hc]
      exact ⟨fun _ => (isCyclic_iff _).mp hc, fun _ => rfl⟩
    · rw [if_neg hc]
      constructor
      · intro h; simp at h
      · intro h; exact absurd ((isCyclic_iff _).mpr h) hc
  · intro p hchk
    simp only [resolverF]
    rw [if_pos hchk]
    by_cases hc : isCyclic (graphFromServiceMap c.map) = true
    · rw [if_pos hc]
      exact ⟨fun _ => (isCyclic_iff _).mp hc, fun _ => rfl⟩
    · rw [if_neg hc]
      constructor
      · intro h; simp at h
      · intro h; exact absurd ((isCyclic_iff _).mpr h) hc
  · intro t hg
    have hn : neighbors (graphFromServiceMap c.map) t = [] := by
      unfold neighbors; rw [hg]; rfl
    refine ⟨hn, ?_⟩
    intro htg
    rcases (Relation.TransGen.head'_iff).mp htg with ⟨b, hb, _⟩
    unfold EdgeG at hb
    rw [hn] at hb
    simp at hb
  · intro fuel regs t s e s1 h he
    rcases (resolve_error_class fuel).2.1 regs t s e s1 h with h1 | h1 <;>
      (subst h1; simp at he)

/-- Witness for C2: the concrete cyclic registry is rejected with the
cyclic-dependency error, and a token referenced only as a dependency has no
outgoing edges. -/
theorem c2_cycle_detection_witness :
    resolverF cycC none = .error .cyclicDependency ∧
    neighbors (graphFromServiceMap okC.map) 7 = [] := by
  constructor
  · refine (c2_cycle_detection cycC).1.mpr ⟨0, Relation.TransGen.single ?_⟩
    show (0 : Token) ∈ neighbors (graphFromServiceMap cycC.map) 0
    simp [cycC, createContainerProvide, mapSet, mapHas, mapGet, depDef,
      graphFromServiceMap, neighbors, List.find?]
  · refine ((c2_cycle_detection okC).2.2.1 7 ?_).1
    simp [okC, provide, createContainerProvide, mapSet, mapHas, mapGet, depDef, allocDef,
      graphFromServiceMap, List.find?]

/-! ### Claim C4 -/

/-- Claim C4: truthiness, not map membership, decides absence and hits.
(1) Whenever the internal resolution yields a falsy instance, `resolve` raises
the missing-registration error even though a definition may exist.
(2) A falsy instance sitting in a scoped token's cache is treated as a miss:
the factory is re-invoked (a new trace entry appears) and its result
re-cached, overwriting the falsy entry.
(3) A falsy result produced by the parent probe of a singleton is ignored and
resolution falls through to the local cache-or-construct path. -/
theorem c4_truthiness :
    (∀ fuel (regs : Chain) t s v s1, internalResolve fuel regs t s = (.ok v, s1) →
       v.truthy = false →
       resolveTop fuel regs t s = (.error .missingRegistration, s1)) ∧
    (∀ fuel r (rest : Chain) t d s c0, mapGet r t = some d → d.lifetime = .scoped →
       mapGet (s.caches.headD []) t = some c0 → c0.truthy = false →
       (∀ v s1, constructInstance fuel (r :: rest) t d s = (.ok v, s1) →
          internalResolve (fuel + 1) (r :: rest) t s = (.ok v, setHeadCache s1 t v) ∧
          mapGet ((setHeadCache s1 t v).caches.headD []) t = some v ∧
          (∃ vs s0, resolveMany fuel (r :: rest) d.requires s = (.ok vs, s0) ∧
             s1.trace = s0.trace ++ [(t, vs)]))) ∧
    (∀ fuel r r2 (rest2 : Chain) t d s pv ps, mapGet r t = some d →
       d.lifetime = .singleton →
       internalResolve fuel (r2 :: rest2) t (subSt s) = (.ok pv, ps) → pv.truthy = false →
       internalResolve (fuel + 1) (r :: r2 :: rest2) t s =
         cacheOrConstruct fuel (r :: r2 :: rest2) t d (reSt s ps)) := by
  refine ⟨?_, ?_, ?_⟩
  · intro fuel regs t s v s1 h ht
    exact resolveTop_of_internal_falsy fuel regs t s v s1 h ht
  · intro fuel r rest t d s c0 hm hlt hc0 hf v s1 hcon
    have hcached : headCached s t = c0 := by
      unfold headCached
      rw [hc0]
      rfl
    have hmiss : (headCached s t).truthy = false := by rw [hcached]; exact hf
    have heq : internalResolve (fuel + 1) (r :: rest) t s = (.ok v, setHeadCache s1 t v) := by
      rw [internalResolve_scoped_eq fuel r rest t d s hm hlt]
      exact cacheOrConstruct_miss_ok fuel (r :: rest) t d s v s1 hmiss hcon
    refine ⟨heq, ?_, ?_⟩
    · rw [setHeadCache_head]
      exact mapGet_mapSet_self _ t v
    · cases hrm : resolveMany fuel (r :: rest) d.requires s with
      | mk res s0 =>
        cases res with
        | ok vs =>
          refine ⟨vs, s0, rfl, ?_⟩
          rw [constructInstance_ok fuel (r :: rest) t d s vs s0 hrm] at hcon
          injection hcon with h1 h2
          rw [← h2]
        | error e2 =>
          rw [constructInstance_error fuel (r :: rest) t d s e2 s0 hrm] at hcon
          simp at hcon
  · intro fuel r r2 rest2 t d s pv ps hm hlt hp hf
    exact internalResolve_singleton_probe_falsy fuel r r2 rest2 t d s pv ps hm hlt hp hf

/-- Witness for C4 at the concrete falsy-instance registry `zeroC`. -/
theorem c4_truthiness_witness :
    resolveTop 10 [zeroC.map] 5 (initSt 1) =
      (.error .missingRegistration, ⟨[[(5, .vnum 0)]], 0, [(5, [])]⟩) := by
  refine (c4_truthiness).1 10 [zeroC.map] 5 (initSt 1) (.vnum 0)
    ⟨[[(5, .vnum 0)]], 0, [(5, [])]⟩ ?_ rfl
  simp [zeroC, createContainerProvide, mapSet, mapHas, mapGet, constDef,
    internalResolve, cacheOrConstruct, constructInstance, resolveMany,
    headCached, setHeadCache, subSt, reSt, JSVal.truthy, initSt, List.find?]

/-! ### Claim C6 -/

/-- In an acyclic registration map, no dependency of a registered token can
reach that token back along `requires` edges. -/
theorem acyclic_requires_not_reach (r : RegMap) (t : Token) (d : ServiceDefinition)
    (hm : mapGet r t = some d) (hacyc : isCyclic (graphFromServiceMap r) = false) :
    ∀ u ∈ d.requires, ¬ ReachS r u t := by
  intro u hu hreach
  have hedge : EdgeG (graphFromServiceMap r) t u := by
    unfold EdgeG neighbors
    rw [mapGet_graphFromServiceMap, hm]
    simpa using hu
  have hcyc : HasCycleProp (graphFromServiceMap r) :=
    ⟨t, Relation.TransGen.head' hedge hreach⟩
  rw [(isCyclic_iff _).mpr hcyc] at hacyc
  simp at hacyc

/-- Claim C6 counterexample: resolving the transient token 0, whose definition
requires the scoped token 1, changes the resolver's cache (the scoped
dependency gets cached), refuting that the cache is unchanged by transient
resolution. -/
theorem c6_counterexample :
    (mapGet transC.map 0).map ServiceDefinition.lifetime = some .transient ∧
    (initSt 1).caches = [[]] ∧
    (resolveTop 10 [transC.map] 0 (initSt 1)).2.caches = [[(1, .vobj 0)]] := by
  refine ⟨?_, rfl, ?_⟩ <;>
    simp [transC, provide, createContainerProvide, mapSet, mapHas, mapGet, transDef, scDef,
      resolveTop, internalResolve, cacheOrConstruct, constructInstance, resolveMany,
      headCached, setHeadCache, subSt, reSt, JSVal.truthy, initSt, List.find?]

/-- Claim C6 (amended): for a transient token in an acyclic registry, the
parent chain is probed first and a truthy parent result is returned with the
head cache untouched; otherwise the instance is constructed and returned
without writing the transient token's own cache entry (the head cache's entry
for the resolved token is unchanged, though dependency resolution may populate
other entries), and on successful dependency resolution the factory is invoked
anew, appending a trace entry after all dependency work. -/
theorem c6_transient (fuel : Nat) (r : RegMap) (rest : Chain) (t : Token)
    (d : ServiceDefinition) (s : St) (hm : mapGet r t = some d)
    (hlt : d.lifetime = .transient)
    (hacyc : isCyclic (graphFromServiceMap r) = false) :
    mapGet (((internalResolve (fuel + 1) (r :: rest) t s).2).caches.headD []) t
      = mapGet (s.caches.headD []) t ∧
    (rest = [] →
       internalResolve (fuel + 1) (r :: rest) t s = constructInstance fuel (r :: rest) t d s) ∧
    (∀ r2 rest2 pv ps, rest = r2 :: rest2 →
       internalResolve fuel (r2 :: rest2) t (subSt s) = (.ok pv, ps) →
       (pv.truthy = true →
          internalResolve (fuel + 1) (r :: rest) t s = (.ok pv, reSt s ps) ∧
          (reSt s ps).caches.headD [] = s.caches.headD []) ∧
       (pv.truthy = false →
          internalResolve (fuel + 1) (r :: rest) t s =
            constructInstance fuel (r :: rest) t d (reSt s ps))) ∧
    (∀ vs s1, resolveMany fuel (r :: rest) d.requires s = (.ok vs, s1) →
       constructInstance fuel (r :: rest) t d s =
         (.ok (d.factory vs s1.fresh).1,
           { s1 with fresh := (d.factory vs s1.fresh).2, trace := s1.trace ++ [(t, vs)] })) := by
  have hreq := acyclic_requires_not_reach r t d hm hacyc
  refine ⟨?_, ?_, ?_, ?_⟩
  · cases rest with
    | nil =>
      rw [internalResolve_transient_root fuel r t d s hm hlt]
      exact (resolve_head_confine fuel).2.2.2.1 r [] t d s t hreq
    | cons r2 rest2 =>
      cases hp : internalResolve fuel (r2 :: rest2) t (subSt s) with
      | mk pres ps =>
        cases pres with
        | error e2 =>
          rw [internalResolve_transient_probe_error fuel r r2 rest2 t d s e2 ps hm hlt hp]
          simp only [reSt_head]
        | ok pv =>
          by_cases ht : pv.truthy = true
          · rw [internalResolve_transient_probe_truthy fuel r r2 rest2 t d s pv ps hm hlt hp ht]
            simp only [reSt_head]
          · rw [internalResolve_transient_probe_falsy fuel r r2 rest2 t d s pv ps hm hlt hp
              (by simpa using ht)]
            have h2 := (resolve_head_confine fuel).2.2.2.1 r (r2 :: rest2) t d (reSt s ps) t hreq
            rw [h2, reSt_head]
  · intro hrest
    subst hrest
    exact internalResolve_transient_root fuel r t d s hm hlt
  · intro r2 rest2 pv ps hrest hp
    subst hrest
    constructor
    · intro ht
      exact ⟨internalResolve_transient_probe_truthy fuel r r2 rest2 t d s pv ps hm hlt hp ht,
        reSt_head s ps⟩
    · intro ht
      exact internalResolve_transient_probe_falsy fuel r r2 rest2 t d s pv ps hm hlt hp ht
  · intro vs s1 hrm
    exact constructInstance_ok fuel (r :: rest) t d s vs s1 hrm

/-- Witness for C6 (amended) at the concrete transient registry `transC`:
resolving the transient token leaves its own cache entry absent. -/
theorem c6_transient_witness :
    mapGet (((internalResolve 10 [transC.map] 0 (initSt 1)).2).caches.headD []) 0
      = mapGet ((initSt 1).caches.headD []) 0 ∧
    internalResolve 10 [transC.map] 0 (initSt 1) =
      constructInstance 9 [transC.map] 0 transDef (initSt 1) := by
  have h := c6_transient 9 transC.map [] 0 transDef (initSt 1)
    (by simp [transC, provide, createContainerProvide, mapSet, mapHas, mapGet, transDef, scDef,
      List.find?])
    rfl
    (by simp [transC, provide, createContainerProvide, mapSet, mapHas, mapGet, transDef, scDef,
      isCyclic, isCyclicLoop, hasCycle, hasCycleList, uNodes, graphFromServiceMap, neighbors,
      mapKeys, setMem, setAdd, setDel, List.find?])
  exact ⟨h.1, h.2.1 rfl⟩

/-! ### Claim C7 -/

/-- Claim C7 counterexample: a legitimately built parent/child chain (the
inheritance check passes and both registries are acyclic) on which two
successive `resolve` calls for the same singleton token on the same resolver
return two distinct instances: the parent's first construction is the falsy
`0`, so the child constructs locally (`vobj 1`); on the second call the parent
re-invokes its factory, now yielding the truthy `vobj 2`, which wins. -/
theorem c7_counterexample :
    resolverF chiC (some [parC.map]) = .ok chainEx ∧
    (mapGet chiC.map 3).map ServiceDefinition.lifetime = some .singleton ∧
    (resolveTop 10 chainEx 3 (initSt 2)).1 = .ok (.vobj 1) ∧
    (resolveTop 10 chainEx 3 (resolveTop 10 chainEx 3 (initSt 2)).2).1 = .ok (.vobj 2) ∧
    JSVal.vobj 1 ≠ JSVal.vobj 2 := by
  refine ⟨?_, ?_, ?_, ?_, by decide⟩ <;>
    simp [resolverF, chainEx, chiC, parC, createContainerProvide, mapSet, mapHas, mapGet,
      allocDef, checkInheriting, mapKeys, isCyclic, isCyclicLoop, hasCycle, hasCycleList,
      uNodes, graphFromServiceMap, neighbors, setMem, setAdd, setDel,
      resolveTop, internalResolve, cacheOrConstruct, constructInstance, resolveMany,
      headCached, setHeadCache, subSt, reSt, JSVal.truthy, initSt, List.find?]

/-- Claim C7 (amended): a singleton first asks the parent chain, and a truthy
ancestor-supplied instance is returned without touching the local cache; with
no parent, a successful `resolve` caches the instance and every later
`resolve` on the same resolver returns that identical instance with the state
unchanged.  (When falsy instances intervene, repeated calls may differ - see
the counterexample.) -/
theorem c7_singleton (fuel fuel2 : Nat) :
    (∀ r t d s v s1, mapGet r t = some d → d.lifetime = .singleton →
       resolveTop (fuel + 1) [r] t s = (.ok v, s1) →
       resolveTop (fuel2 + 1) [r] t s1 = (.ok v, s1)) ∧
    (∀ r r2 (rest2 : Chain) t d s pv ps, mapGet r t = some d → d.lifetime = .singleton →
       internalResolve fuel (r2 :: rest2) t (subSt s) = (.ok pv, ps) → pv.truthy = true →
       internalResolve (fuel + 1) (r :: r2 :: rest2) t s = (.ok pv, reSt s ps) ∧
       (reSt s ps).caches.headD [] = s.caches.headD []) := by
  constructor
  · intro r t d s v s1 hm hlt h
    obtain ⟨ht, hint⟩ := resolveTop_ok_truthy (fuel + 1) [r] t s v s1 h
    rw [internalResolve_singleton_root fuel r t d s hm hlt] at hint
    have hsecond : internalResolve (fuel2 + 1) [r] t s1 = (.ok v, s1) := by
      rw [internalResolve_singleton_root fuel2 r t d s1 hm hlt]
      by_cases hh : (headCached s t).truthy = true
      · rw [cacheOrConstruct_hit fuel [r] t d s hh] at hint
        injection hint with h1 h2
        injection h1 with h1
        subst h1
        subst h2
        exact cacheOrConstruct_hit fuel2 [r] t d s hh
      · cases hcon : constructInstance fuel [r] t d s with
        | mk res s0 =>
          cases res with
          | ok v0 =>
            rw [cacheOrConstruct_miss_ok fuel [r] t d s v0 s0 (by simpa using hh) hcon] at hint
            injection hint with h1 h2
            injection h1 with h1
            subst h1
            subst h2
            have hcache : headCached (setHeadCache s0 t v0) t = v0 := by
              unfold headCached
              rw [setHeadCache_head, mapGet_mapSet_self]
              rfl
            have hhit := cacheOrConstruct_hit fuel2 [r] t d (setHeadCache s0 t v0)
              (by rw [hcache]; exact ht)
            rw [hcache] at hhit
            exact hhit
          | error e2 =>
            rw [cacheOrConstruct_miss_error fuel [r] t d s e2 s0 (by simpa using hh) hcon] at hint
            simp at hint
    exact resolveTop_of_internal_truthy (fuel2 + 1) [r] t s1 v s1 hsecond ht
  · intro r r2 rest2 t d s pv ps hm hlt hp ht
    exact ⟨internalResolve_singleton_probe_truthy fuel r r2 rest2 t d s pv ps hm hlt hp ht,
      reSt_head s ps⟩

/-- Witness for C7 (amended): on the concrete no-parent registry `okC`, a
second `resolve` of the singleton token 0 returns the identical cached
instance and leaves the state unchanged. -/
theorem c7_singleton_witness :
    resolveTop 10 [okC.map] 0
        ⟨[[(1, .vobj 0), (0, .vobj 1)]], 2, [(1, []), (0, [.vobj 0])]⟩ =
      (.ok (.vobj 1), ⟨[[(1, .vobj 0), (0, .vobj 1)]], 2, [(1, []), (0, [.vobj 0])]⟩) := by
  refine (c7_singleton 9 9).1 okC.map 0 (depDef [1]) (initSt 1) (.vobj 1)
    ⟨[[(1, .vobj 0), (0, .vobj 1)]], 2, [(1, []), (0, [.vobj 0])]⟩ ?_ rfl ?_ <;>
    simp [okC, provide, createContainerProvide, mapSet, mapHas, mapGet, depDef, allocDef,
      resolveTop, internalResolve, cacheOrConstruct, constructInstance, resolveMany,
      headCached, setHeadCache, subSt, reSt, JSVal.truthy, initSt, List.find?]

/-! ### Claim C8 -/

/-- Claim C8: a scoped token consults only this resolver's own cache.  On a
(truthy) hit the cached instance is returned with the whole state - including
every parent cache - untouched; on a miss the dependencies are resolved, the
factory invoked, and the instance cached in this resolver's cache only (the
parent caches of the resulting state are exactly those left by dependency
resolution).  Concretely, a fresh resolver over `scC` builds and caches its
own instance, and a repeat `resolve` returns it unchanged - so two independent
resolvers each hold their own scoped instance. -/
theorem c8_scoped (fuel : Nat) :
    (∀ r (rest : Chain) t d s, mapGet r t = some d → d.lifetime = .scoped →
       (headCached s t).truthy = true →
       internalResolve (fuel + 1) (r :: rest) t s = (.ok (headCached s t), s)) ∧
    (∀ r (rest : Chain) t d s, mapGet r t = some d → d.lifetime = .scoped →
       (headCached s t).truthy = false →
       (∀ v s1, constructInstance fuel (r :: rest) t d s = (.ok v, s1) →
          internalResolve (fuel + 1) (r :: rest) t s = (.ok v, setHeadCache s1 t v) ∧
          (setHeadCache s1 t v).caches.tail = s1.caches.tail ∧
          mapGet ((setHeadCache s1 t v).caches.headD []) t = some v) ∧
       (∀ e s1, constructInstance fuel (r :: rest) t d s = (.error e, s1) →
          internalResolve (fuel + 1) (r :: rest) t s = (.error e, s1))) ∧
    ((resolveTop 10 [scC.map] 9 (initSt 1)).2.caches = [[(9, .vobj 0)]] ∧
     resolveTop 10 [scC.map] 9 (initSt 1) =
       (.ok (.vobj 0), ⟨[[(9, .vobj 0)]], 1, [(9, [])]⟩) ∧
     resolveTop 10 [scC.map] 9 ⟨[[(9, .vobj 0)]], 1, [(9, [])]⟩ =
       (.ok (.vobj 0), ⟨[[(9, .vobj 0)]], 1, [(9, [])]⟩)) := by
  refine ⟨?_, ?_, ?_, ?_, ?_⟩
  · intro r rest t d s hm hlt hh
    rw [internalResolve_scoped_eq fuel r rest t d s hm hlt]
    exact cacheOrConstruct_hit fuel (r :: rest) t d s hh
  · intro r rest t d s hm hlt hh
    constructor
    · intro v s1 hcon
      refine ⟨?_, by simp [setHeadCache], ?_⟩
      · rw [internalResolve_scoped_eq fuel r rest t d s hm hlt]
        exact cacheOrConstruct_miss_ok fuel (r :: rest) t d s v s1 hh hcon
      · rw [setHeadCache_head]
        exact mapGet_mapSet_self _ t v
    · intro e s1 hcon
      rw [internalResolve_scoped_eq fuel r rest t d s hm hlt]
      exact cacheOrConstruct_miss_error fuel (r :: rest) t d s e s1 hh hcon
  · simp [scC, createContainerProvide, mapSet, mapHas, mapGet, scDef,
      resolveTop, internalResolve, cacheOrConstruct, constructInstance, resolveMany,
      headCached, setHeadCache, subSt, reSt, JSVal.truthy, initSt, List.find?]
  · simp [scC, createContainerProvide, mapSet, mapHas, mapGet, scDef,
      resolveTop, internalResolve, cacheOrConstruct, constructInstance, resolveMany,
      headCached, setHeadCache, subSt, reSt, JSVal.truthy, initSt, List.find?]
  · simp [scC, createContainerProvide, mapSet, mapHas, mapGet, scDef,
      resolveTop, internalResolve, cacheOrConstruct, constructInstance, resolveMany,
      headCached, setHeadCache, subSt, reSt, JSVal.truthy, initSt, List.find?]

/-- Witness for C8 at a concrete cached scoped instance: the hit returns the
cached value with the state untouched. -/
theorem c8_scoped_witness :
    internalResolve 10 [scC.map] 9 ⟨[[(9, .vobj 7)]], 5, []⟩ =
      (.ok (headCached ⟨[[(9, .vobj 7)]], 5, []⟩ 9), ⟨[[(9, .vobj 7)]], 5, []⟩) := by
  refine (c8_scoped 9).1 scC.map [] 9 scDef ⟨[[(9, .vobj 7)]], 5, []⟩ ?_ rfl ?_ <;>
    simp [scC, createContainerProvide, mapSet, mapHas, mapGet, scDef, headCached,
      JSVal.truthy, List.find?]

/-! ### Claim C9 -/

/-- Claim C9: construction is strict post-order with positional arguments.
The implementation's dependency resolution coincides with the sequential
left-to-right specification `ResolvesSeq`, whose value list pairs one resolved
value per `requires` entry in order; the factory receives exactly that list
(one value per dependency, in `requires` order), it is invoked only after the
entire dependency resolution has completed (its trace entry is appended after
the state `s1` left by the dependencies, whose trace already extends the
initial one), and a dependency failure aborts construction without invoking
the factory. -/
theorem c9_post_order (fuel : Nat) (regs : Chain) :
    (∀ ts vs s s1, resolveMany fuel regs ts s = (.ok vs, s1) ↔
       ResolvesSeq fuel regs ts vs s s1) ∧
    (∀ ts vs s s1, ResolvesSeq fuel regs ts vs s s1 →
       vs.length = ts.length ∧ ∃ tr, s1.trace = s.trace ++ tr) ∧
    (∀ t d s vs s1, resolveMany fuel regs d.requires s = (.ok vs, s1) →
       constructInstance fuel regs t d s =
         (.ok (d.factory vs s1.fresh).1,
           { s1 with fresh := (d.factory vs s1.fresh).2, trace := s1.trace ++ [(t, vs)] })) ∧
    (∀ t d s e s1, resolveMany fuel regs d.requires s = (.error e, s1) →
       constructInstance fuel regs t d s = (.error e, s1)) := by
  have hiff : ∀ ts vs s s1, resolveMany fuel regs ts s = (.ok vs, s1) ↔
      ResolvesSeq fuel regs ts vs s s1 := by
    intro ts
    induction ts with
    | nil =>
      intro vs s s1
      constructor
      · intro h
        rw [resolveMany_nil] at h
        injection h with h1 h2
        injection h1 with h1
        subst h2
        rw [← h1]
        exact ResolvesSeq.nil s
      · intro h
        cases h
        exact resolveMany_nil fuel regs s
    | cons t rest ih =>
      intro vs s s1
      constructor
      · intro h
        cases hrt1 : resolveTop fuel regs t s with
        | mk res s2 =>
          cases res with
          | error e2 => simp only [resolveMany, hrt1] at h; simp at h
          | ok v =>
            cases hrm2 : resolveMany fuel regs rest s2 with
            | mk res2 s3 =>
              cases res2 with
              | error e2 => simp only [resolveMany, hrt1, hrm2] at h; simp at h
              | ok vs2 =>
                simp only [resolveMany, hrt1, hrm2] at h
                injection h with h1 h2
                injection h1 with h1
                subst h2
                rw [← h1]
                exact ResolvesSeq.cons hrt1 ((ih vs2 s2 s3).mp hrm2)
      · intro h
        cases h with
        | cons hrt1 hseq =>
          have hrm2 := (ih _ _ _).mpr hseq
          simp only [resolveMany, hrt1, hrm2]
  refine ⟨hiff, ?_, ?_, ?_⟩
  · intro ts vs s s1 h
    induction h with
    | nil s => exact ⟨rfl, [], by simp⟩
    | cons hrt1 hseq ih =>
      obtain ⟨hlen, tr2, htr2⟩ := ih
      refine ⟨by simp [hlen], ?_⟩
      obtain ⟨tr1, htr1⟩ := (resolve_trace_mono fuel).2.1 regs _ _
      rw [hrt1] at htr1
      simp only [] at htr1
      exact ⟨tr1 ++ tr2, by rw [htr2, htr1, List.append_assoc]⟩
  · intro t d s vs s1 h
    exact constructInstance_ok fuel regs t d s vs s1 h
  · intro t d s e s1 h
    exact constructInstance_error fuel regs t d s e s1 h

/-- Witness for C9 at the concrete registry `okC`: the dependency list `[1]`
of token 0 resolves sequentially to one value, and construction invokes the
factory with it after the dependency's trace entry. -/
theorem c9_post_order_witness :
    ResolvesSeq 10 [okC.map] [1] [.vobj 0] (initSt 1)
      ⟨[[(1, .vobj 0)]], 1, [(1, [])]⟩ ∧
    constructInstance 10 [okC.map] 0 (depDef [1]) (initSt 1) =
      (.ok (.vobj 1), ⟨[[(1, .vobj 0)]], 2, [(1, []), (0, [.vobj 0])]⟩) := by
  have hrm : resolveMany 10 [okC.map] [1] (initSt 1) =
      (.ok [.vobj 0], ⟨[[(1, .vobj 0)]], 1, [(1, [])]⟩) := by
    simp [okC, provide, createContainerProvide, mapSet, mapHas, mapGet, depDef, allocDef,
      resolveTop, internalResolve, cacheOrConstruct, constructInstance, resolveMany,
      headCached, setHeadCache, subSt, reSt, JSVal.truthy, initSt, List.find?]
  constructor
  · exact ((c9_post_order 10 [okC.map]).1 [1] [.vobj 0] (initSt 1)
      ⟨[[(1, .vobj 0)]], 1, [(1, [])]⟩).mp hrm
  · have h := (c9_post_order 10 [okC.map]).2.2.1 0 (depDef [1]) (initSt 1) [.vobj 0]
      ⟨[[(1, .vobj 0)]], 1, [(1, [])]⟩ (by exact hrm)
    rw [h]
    rfl

end TightDI
